import Mathlib

/-!
Verification of the api-cli request execution and persistence subsystem.

Go header maps (`map[string]string`) are modelled as association lists
(`List (String × String)`); Go map assignment `m[k] = v` is `mapSet`
(replace the existing binding in place, otherwise append).  Go's
`strings.ToLower` and `strings.TrimSpace` are modelled at the ASCII level
(`lowerString`, `trimString`), which coincides with Go on the header keys
and values this tool handles.  All definitions are transcribed from the Go
sources in `cmd/`, `internal/storage/json.go` and `internal/http/client.go`.
-/

/-- ASCII lowercase of one character (Go `strings.ToLower`, ASCII range). -/
def toLowerChar (c : Char) : Char :=
  if 65 ≤ c.toNat ∧ c.toNat ≤ 90 then Char.ofNat (c.toNat + 32) else c

/-- ASCII lowercase of a string (Go `strings.ToLower`). -/
def lowerString (s : String) : String := String.mk (s.toList.map toLowerChar)

/-- Whitespace test used by Go `strings.TrimSpace` (ASCII subset). -/
def isSpaceChar (c : Char) : Bool := (c == ' ') || (c == '\t') || (c == '\n') || (c == '\r')

/-- Strip leading and trailing whitespace from a character list. -/
def trimChars (cs : List Char) : List Char :=
  ((cs.dropWhile isSpaceChar).reverse.dropWhile isSpaceChar).reverse

/-- Go `strings.TrimSpace`. -/
def trimString (s : String) : String := String.mk (trimChars s.toList)

/-- Header maps: association lists mirroring Go `map[string]string`. -/
abbrev HeaderMap := List (String × String)

/-- Go map assignment `m[k] = v`: replace the binding for `k` if present,
otherwise add a new one. -/
def mapSet (m : HeaderMap) (k v : String) : HeaderMap :=
  match m with
  | [] => [(k, v)]
  | (k', v') :: rest => if k' = k then (k, v) :: rest else (k', v') :: mapSet rest k v

/-- The fixed sensitive-header set from `cmd/request.go` (`sensitiveHeaders`),
keys lowercase exactly as in the source. -/
def sensitiveHeaders : List String :=
  [ "authorization", "proxy-authorization", "www-authenticate",
    "cookie", "set-cookie", "x-api-key", "api-key",
    "x-auth-token", "x-csrf-token", "x-xsrf-token",
    "x-amz-security-token", "x-amz-credential", "x-amz-signature",
    "x-goog-authenticated-user-email", "x-goog-authenticated-user-id",
    "x-goog-iap-jwt-assertion",
    "x-ms-client-principal", "x-ms-client-principal-id",
    "x-ms-token-aad-id-token",
    "x-access-token", "x-refresh-token", "x-session-token",
    "x-secret-key", "x-private-key" ]

/-- `sensitiveHeaders[strings.ToLower(k)]` from `filterSensitiveHeaders`. -/
def isSensitive (k : String) : Bool := sensitiveHeaders.contains (lowerString k)

/-- `filterSensitiveHeaders` from `cmd/request.go`: a copy of the header
map where every key whose lowercase form is sensitive gets the value
`[REDACTED]`; other entries pass through unchanged. -/
def filterSensitiveHeaders (m : HeaderMap) : HeaderMap :=
  m.map (fun p => if isSensitive p.1 then (p.1, "[REDACTED]") else p)

/-- Break a character list at the first occurrence of `c`; `none` when `c`
does not occur (mirrors Go `strings.SplitN(s, ":", 2)` yielding one part). -/
def breakAtChar (c : Char) : List Char → Option (List Char × List Char)
  | [] => none
  | x :: xs =>
    if x = c then some ([], xs)
    else (breakAtChar c xs).map (fun q => (x :: q.1, q.2))

/-- `strings.SplitN(h, ":", 2)` from `parseHeaders`: `some (key, value)`
when `h` contains a colon, split at the first one; otherwise `none`. -/
def splitOnceColon (s : String) : Option (String × String) :=
  (breakAtChar ':' s.toList).map (fun q => (String.mk q.1, String.mk q.2))

/-- `parseHeaders` from `cmd/request.go`: fold the `-H` argument strings
into a header map, dropping strings without a colon and trimming
whitespace around key and value. -/
def parseHeaders (headerStrings : List String) : HeaderMap :=
  headerStrings.foldl
    (fun result h =>
      match splitOnceColon h with
      | none => result
      | some (k, v) => mapSet result (trimString k) (trimString v))
    []

/-- `runCollectionAdd` from `cmd/collection.go`: the header map stored by
the explicit `collection add` command; headers are parsed then passed
through `filterSensitiveHeaders` before storage. -/
def collectionAddHeaders (hs : List String) : HeaderMap :=
  filterSensitiveHeaders (parseHeaders hs)

/-- `runRequest` + `saveRequestToCollection` from `cmd/request.go`: the
header map stored by the `-c` save-during-request path; the parsed map is
stored as-is, with no redaction step. -/
def dashCSaveHeaders (hs : List String) : HeaderMap :=
  parseHeaders hs

/-- A header map is redaction-clean when every sensitive key maps to the
literal `[REDACTED]`. -/
def redactedHeadersOK (m : HeaderMap) : Prop :=
  ∀ p ∈ m, isSensitive p.1 = true → p.2 = "[REDACTED]"

instance (m : HeaderMap) : Decidable (redactedHeadersOK m) := by
  unfold redactedHeadersOK; infer_instance

-- ===========================================================================
-- Theorems
-- ===========================================================================

/-- C3: `Redact` (`filterSensitiveHeaders`) is total on header maps: the
empty map yields the empty map; each entry whose lowercase key is in the
sensitive set appears in the output as the same key (casing preserved)
mapped to exactly `[REDACTED]`; every other entry appears unchanged; the
output has exactly the entries of the input (length preserved, and every
output entry is either redacted-sensitive or an unchanged input entry). -/
theorem redact_total_sensitive_redacted_others_unchanged :
    filterSensitiveHeaders [] = [] ∧
    (∀ (m : HeaderMap) (k v : String), (k, v) ∈ m →
      (isSensitive k = true →
        (k, "[REDACTED]") ∈ filterSensitiveHeaders m) ∧
      (isSensitive k = false →
        (k, v) ∈ filterSensitiveHeaders m)) ∧
    (∀ (m : HeaderMap), (filterSensitiveHeaders m).length = m.length) ∧
    (∀ (m : HeaderMap), ∀ p ∈ filterSensitiveHeaders m,
      (isSensitive p.1 = true → p.2 = "[REDACTED]") ∧
      (isSensitive p.1 = false → p ∈ m)) := by
  refine ⟨rfl, ?_, ?_, ?_⟩
  · intro m k v hmem
    have hbase : (if isSensitive (k, v).1 then ((k, v).1, "[REDACTED]")
        else (k, v)) ∈ filterSensitiveHeaders m :=
      List.mem_map_of_mem _ hmem
    constructor
    · intro hs; simpa [hs] using hbase
    · intro hs; simpa [hs] using hbase
  · intro m; simp [filterSensitiveHeaders]
  · intro m p hp
    rcases List.mem_map.1 hp with ⟨q, hq, hqe⟩
    by_cases hs : isSensitive q.1
    · simp only [hs, if_pos] at hqe
      constructor
      · intro _; rw [← hqe]
      · intro hfalse; rw [← hqe] at hfalse; simp at hfalse; rw [hfalse] at hs; simp at hs
    · rw [Bool.not_eq_true] at hs
      simp only [hs, Bool.false_eq_true, if_false] at hqe
      constructor
      · intro htrue; rw [← hqe] at htrue; rw [htrue] at hs; simp at hs
      · intro _; rw [← hqe]; exact hq

/-- Witness for C3 at concrete inputs: `Authorization` is redacted,
`Accept` passes through. -/
theorem redact_total_sensitive_redacted_others_unchanged_witness :
    ("Authorization", "[REDACTED]") ∈
      filterSensitiveHeaders [("Authorization", "Bearer t0k3n"), ("Accept", "json")] ∧
    ("Accept", "json") ∈
      filterSensitiveHeaders [("Authorization", "Bearer t0k3n"), ("Accept", "json")] :=
  ⟨(redact_total_sensitive_redacted_others_unchanged.2.1
      [("Authorization", "Bearer t0k3n"), ("Accept", "json")]
      "Authorization" "Bearer t0k3n" (by decide)).1 (by decide),
   (redact_total_sensitive_redacted_others_unchanged.2.1
      [("Authorization", "Bearer t0k3n"), ("Accept", "json")]
      "Accept" "json" (by decide)).2 (by decide)⟩


/-- Go map read `m[k]`: the value bound to `k`, if any. -/
def lookupHM (k : String) : HeaderMap → Option String
  | [] => none
  | (k', v) :: rest => if k' = k then some v else lookupHM k rest

-- ---------------------------------------------------------------------------
-- Helper lemmas on breakAtChar / mapSet / filterSensitiveHeaders
-- ---------------------------------------------------------------------------

theorem breakAtChar_none_iff (c : Char) (l : List Char) :
    breakAtChar c l = none ↔ c ∉ l := by
  induction l with
  | nil => simp [breakAtChar]
  | cons x xs ih =>
    by_cases hx : x = c
    · subst hx; simp [breakAtChar]
    · simp only [breakAtChar, if_neg hx, Option.map_eq_none', ih, List.mem_cons]
      constructor
      · intro h hor
        rcases hor with he | hm
        · exact hx he.symm
        · exact h hm
      · intro h hm
        exact h (Or.inr hm)

theorem breakAtChar_some_split (c : Char) (l p q : List Char)
    (h : breakAtChar c l = some (p, q)) : p ++ c :: q = l ∧ c ∉ p := by
  induction l generalizing p q with
  | nil => simp [breakAtChar] at h
  | cons x xs ih =>
    by_cases hx : x = c
    · subst hx
      simp [breakAtChar] at h
      obtain ⟨hp, hq⟩ := h
      subst hp; subst hq; simp
    · simp only [breakAtChar, if_neg hx] at h
      cases hb : breakAtChar c xs with
      | none => rw [hb] at h; simp at h
      | some r =>
        rw [hb] at h
        simp only [Option.map_some', Option.some.injEq, Prod.mk.injEq] at h
        rcases h with ⟨hp, hq⟩
        rcases ih r.1 r.2 (by rw [hb]) with ⟨hsplit, hnot⟩
        constructor
        · rw [← hp, ← hq]; simpa using hsplit
        · rw [← hp]
          intro hmem
          rcases List.mem_cons.1 hmem with he | hm
          · exact hx he.symm
          · exact hnot hm

theorem lookupHM_mapSet_self (m : HeaderMap) (k v : String) :
    lookupHM k (mapSet m k v) = some v := by
  induction m with
  | nil => simp [mapSet, lookupHM]
  | cons p rest ih =>
    by_cases hk : p.1 = k
    · simp [mapSet, hk, lookupHM]
    · simp [mapSet, hk, lookupHM, ih]

theorem lookupHM_mapSet_other (m : HeaderMap) (k k' v : String) (h : k' ≠ k) :
    lookupHM k' (mapSet m k v) = lookupHM k' m := by
  induction m with
  | nil => simp [mapSet, lookupHM, Ne.symm h]
  | cons p rest ih =>
    by_cases hk : p.1 = k
    · subst hk
      simp [mapSet, lookupHM, Ne.symm h]
    · by_cases hpk : p.1 = k'
      · simp [mapSet, hk, lookupHM, hpk, h]
      · simp [mapSet, hk, lookupHM, hpk, ih]

theorem redactedHeadersOK_filterSensitive (m : HeaderMap) :
    redactedHeadersOK (filterSensitiveHeaders m) := by
  intro p hp hs
  rcases List.mem_map.1 hp with ⟨q, _, hqe⟩
  by_cases hq : isSensitive q.1
  · simp only [hq, if_pos] at hqe; rw [← hqe]
  · rw [Bool.not_eq_true] at hq
    simp only [hq, Bool.false_eq_true, if_false] at hqe
    rw [← hqe] at hs; rw [hs] at hq; cases hq

-- ---------------------------------------------------------------------------
-- C10 / C1 theorems
-- ---------------------------------------------------------------------------

/-- C10: `-H` header parsing is total and silently lossy: appending an
argument without a colon leaves the parsed map unchanged; appending an
argument with a colon splits it at the first colon, trims both sides and
writes the binding into the map; `splitOnceColon` is `none` exactly on
colon-free strings and otherwise splits at the first colon; and a binding
written for an existing key overwrites it (later argument wins) while
leaving other keys untouched. -/
theorem parseHeaders_total_lossy_last_wins :
    (∀ (args : List String) (a : String),
      (splitOnceColon a = none → parseHeaders (args ++ [a]) = parseHeaders args) ∧
      (∀ k v, splitOnceColon a = some (k, v) →
        parseHeaders (args ++ [a]) =
          mapSet (parseHeaders args) (trimString k) (trimString v))) ∧
    (∀ a : String, splitOnceColon a = none ↔ ':' ∉ a.toList) ∧
    (∀ (a : String) (k v : String), splitOnceColon a = some (k, v) →
      k.toList ++ ':' :: v.toList = a.toList ∧ ':' ∉ k.toList) ∧
    (∀ (m : HeaderMap) (k v : String), lookupHM k (mapSet m k v) = some v) ∧
    (∀ (m : HeaderMap) (k k' v : String), k' ≠ k →
      lookupHM k' (mapSet m k v) = lookupHM k' m) := by
  refine ⟨?_, ?_, ?_, lookupHM_mapSet_self, lookupHM_mapSet_other⟩
  · intro args a
    constructor
    · intro h
      simp [parseHeaders, List.foldl_append, h]
    · intro k v h
      simp [parseHeaders, List.foldl_append, h]
  · intro a
    simp only [splitOnceColon, Option.map_eq_none']
    exact breakAtChar_none_iff ':' a.toList
  · intro a k v h
    simp only [splitOnceColon] at h
    cases hbb : breakAtChar ':' a.toList with
    | none => rw [hbb] at h; simp at h
    | some q =>
      rw [hbb] at h
      simp only [Option.map_some', Option.some.injEq, Prod.mk.injEq] at h
      rcases h with ⟨hk, hv⟩
      rcases breakAtChar_some_split ':' a.toList q.1 q.2 (by rw [hbb]) with ⟨hsplit, hnot⟩
      rw [← hk, ← hv]
      exact ⟨hsplit, hnot⟩

/-- Witness for C10: a colon-free argument is dropped; a later duplicate
key overwrites; lookup reflects the overwrite. -/
theorem parseHeaders_total_lossy_last_wins_witness :
    parseHeaders (["X: 1"] ++ ["nocolon"]) = parseHeaders ["X: 1"] ∧
    parseHeaders (["Auth: a"] ++ ["Auth: b"]) =
      mapSet (parseHeaders ["Auth: a"]) (trimString "Auth") (trimString " b") ∧
    lookupHM "k" (mapSet [("k", "1"), ("j", "2")] "k" "3") = some "3" :=
  ⟨(parseHeaders_total_lossy_last_wins.1 ["X: 1"] "nocolon").1 (by decide),
   (parseHeaders_total_lossy_last_wins.1 ["Auth: a"] "Auth: b").2 "Auth" " b" (by decide),
   parseHeaders_total_lossy_last_wins.2.2.2.1 [("k", "1"), ("j", "2")] "k" "3"⟩

/-- C1 counterexample: the `-c` save-during-request path
(`saveRequestToCollection` called from `runRequest`) persists the parsed
header map without redaction, so a sensitive `Authorization` header
supplied via `-H` is stored raw, falsifying the claim that every
collection-store path redacts. -/
theorem dashC_save_stores_raw_sensitive_header :
    ¬ redactedHeadersOK (dashCSaveHeaders ["Authorization: Bearer t0k3n"]) := by
  decide

/-- C1 amended: only the explicit `collection add` path redacts — its
stored header map is always redaction-clean — while the `-c`
save-during-request path stores the parsed `-H` header map unchanged. -/
theorem collectionAdd_redacts_dashC_does_not :
    (∀ hs : List String, redactedHeadersOK (collectionAddHeaders hs)) ∧
    (∀ hs : List String, dashCSaveHeaders hs = parseHeaders hs) :=
  ⟨fun hs => redactedHeadersOK_filterSensitive (parseHeaders hs),
   fun _ => rfl⟩

-- ===========================================================================
-- Alias resolution (cmd/request.go resolveAlias)
-- ===========================================================================

/-- Alias table: `name -> base URL`, mirroring `model.Aliases`. -/
abbrev AliasMap := List (String × String)

/-- Character-level test that `s` begins with the pattern `pat`
(Go `strings.HasPre` + `fix`-style check, spelled out). -/
def hasLead (pat s : List Char) : Bool :=
  match pat, s with
  | [], _ => true
  | _ :: _, [] => false
  | p :: ps, c :: cs => p == c && hasLead ps cs

/-- `s` starts with `pat` (on strings). -/
def strLeads (s pat : String) : Bool := hasLead pat.toList s.toList

/-- Go `strings.TrimSuffix(s, "/")`: drop one trailing slash if present. -/
def trimOneSuffixSlash (s : String) : String :=
  if s.toList.getLast? = some '/' then String.mk s.toList.dropLast else s

/-- Go `strings.TrimPre`…`(s, "/")`: drop one leading slash if present. -/
def trimOneLeadSlash (s : String) : String :=
  if s.toList.head? = some '/' then String.mk s.toList.tail else s

/-- `strings.Index(url, "/")` split from `resolveAlias`: candidate alias
name before the first `/` and the path after it (whole string and empty
path when there is no `/`). -/
def aliasSplit (url : String) : String × String :=
  match breakAtChar '/' url.toList with
  | none => (url, "")
  | some q => (String.mk q.1, String.mk q.2)

/-- `resolveAlias` from `cmd/request.go`; the storage lookup
(`store.GetAlias`) is the `lookupHM` over the given alias table. -/
def resolveAlias (al : AliasMap) (url : String) : String :=
  if strLeads url "http://" || strLeads url "https://" then url
  else
    match lookupHM (aliasSplit url).1 al with
    | none => url
    | some baseURL =>
      let b := trimOneSuffixSlash baseURL
      let p := trimOneLeadSlash (aliasSplit url).2
      if p = "" then b else b ++ "/" ++ p

-- ===========================================================================
-- URL safety validation (internal/http/client.go)
-- ===========================================================================

/-- The private/reserved textual patterns from `isPrivateOrReservedHost`. -/
def privatePatterns : List String :=
  [ "10.", "192.168.",
    "172.16.", "172.17.", "172.18.", "172.19.",
    "172.20.", "172.21.", "172.22.", "172.23.",
    "172.24.", "172.25.", "172.26.", "172.27.",
    "172.28.", "172.29.", "172.30.", "172.31.",
    "0.", "169.254." ]

/-- `isPrivateOrReservedHost`: textual pattern match on the hostname. -/
def isPrivateOrReservedHost (hostname : String) : Bool :=
  privatePatterns.any (fun pat => strLeads hostname pat)

/-- The metadata-endpoint denylist from `isCloudMetadataEndpoint`. -/
def metadataHosts : List String :=
  [ "169.254.169.254", "metadata.google.internal", "metadata.goog",
    "100.100.100.200", "169.254.170.2" ]

/-- `isCloudMetadataEndpoint`: case-insensitive denylist membership. -/
def isCloudMetadataEndpoint (hostname : String) : Bool :=
  metadataHosts.contains (lowerString hostname)

/-- Fatal validation outcomes of `validateURL`. -/
inductive URLError
  | unsupportedScheme (scheme : String)
  | missingHost
  | blockedMetadataEndpoint (hostname : String)
deriving DecidableEq

/-- `validateURL` from `internal/http/client.go`, after `url.Parse`
(parsing itself is Go standard library, external to this repository): the
scheme and hostname checks in source order.  Warnings are printed to
stderr in Go; here they are collected in the `ok` result. -/
def validateURL (scheme hostname : String) : Except URLError (List String) :=
  if ¬ (lowerString scheme = "http") ∧ ¬ (lowerString scheme = "https") then
    .error (.unsupportedScheme scheme)
  else if hostname = "" then
    .error .missingHost
  else
    let w1 :=
      if lowerString hostname = "localhost" ∨ lowerString hostname = "127.0.0.1" ∨
          lowerString hostname = "::1"
      then ["localhost/loopback"] else []
    let w2 := if isPrivateOrReservedHost hostname then ["private/internal IP"] else []
    if isCloudMetadataEndpoint hostname then
      .error (.blockedMetadataEndpoint hostname)
    else
      .ok (w1 ++ w2)

/-- `Client.Do` dispatches the network call only when `validateURL`
returned no error (the `if err := validateURL(reqURL); err != nil` guard). -/
def doAttemptsNetwork (scheme hostname : String) : Bool :=
  match validateURL scheme hostname with
  | .error _ => false
  | .ok _ => true

-- ===========================================================================
-- Response body cap (internal/http/client.go Client.Do)
-- ===========================================================================

/-- `MaxResponseSize = 50 * 1024 * 1024` (50 MiB). -/
def MaxResponseSize : Nat := 50 * 1024 * 1024

/-- The body read in `Client.Do`: `io.LimitReader(resp.Body,
MaxResponseSize+1)` followed by the truncation check.  Returns the stored
body and whether the truncation warning was emitted. -/
def readLimitedBody (wire : List UInt8) : List UInt8 × Bool :=
  let respBody := wire.take (MaxResponseSize + 1)
  if MaxResponseSize < respBody.length then
    (respBody.take MaxResponseSize, true)
  else
    (respBody, false)

-- ===========================================================================
-- Batch runner (cmd/collection.go runCollectionRun)
-- ===========================================================================

/-- `model.SavedRequest`. -/
structure SavedRequest where
  name : String
  method : String
  url : String
  headers : HeaderMap
  body : String
deriving DecidableEq

/-- `model.Response`. -/
structure Response where
  statusCode : Nat
  status : String
  headers : HeaderMap
  body : String
  durationMs : Nat
deriving DecidableEq

/-- The loop body of `runCollectionRun`: each saved request has its URL
alias-resolved and is executed through `client.Do` (abstracted as the
`exec` oracle); an error result is recorded and the loop continues
(`continue` in source). -/
def runItems (al : AliasMap)
    (exec : String → String → HeaderMap → String → Except String Response) :
    List SavedRequest → List (SavedRequest × Except String Response)
  | [] => []
  | r :: rest =>
    (r, exec r.method (resolveAlias al r.url) r.headers r.body) :: runItems al exec rest

/-- Outcome of `runCollectionRun` after the collection has been fetched. -/
inductive CollectionRunOutcome
  | notFound
  | emptyCollection
  | completed (results : List (SavedRequest × Except String Response))

/-- `runCollectionRun` from `cmd/collection.go`: `col` is the result of
`store.GetCollection` (`none` = collection absent).  A missing collection
and an empty collection abort before any request; otherwise every request
is attempted. -/
def runCollectionRun (al : AliasMap)
    (exec : String → String → HeaderMap → String → Except String Response)
    (col : Option (List SavedRequest)) : CollectionRunOutcome :=
  match col with
  | none => .notFound
  | some [] => .emptyCollection
  | some reqs => .completed (runItems al exec reqs)

/-- `runItems` applies the executor to every saved request exactly once,
in stored order, regardless of per-item outcomes. -/
theorem runItems_eq_map (al : AliasMap)
    (exec : String → String → HeaderMap → String → Except String Response)
    (reqs : List SavedRequest) :
    runItems al exec reqs =
      reqs.map (fun r => (r, exec r.method (resolveAlias al r.url) r.headers r.body)) := by
  induction reqs with
  | nil => rfl
  | cons r rest ih => simp [runItems, ih]

/-- C6: `resolveAlias` is the identity on full URLs (`http://`/`https://`)
and on inputs whose first path segment is not a known alias; when the
first segment is a known alias the result is the base URL with one
trailing `/` stripped, joined by a single `/` to the path suffix with one
leading `/` stripped, or the bare base when the suffix is empty. -/
theorem resolveAlias_identity_and_join :
    (∀ (al : AliasMap) (url : String),
      strLeads url "http://" = true ∨ strLeads url "https://" = true →
      resolveAlias al url = url) ∧
    (∀ (al : AliasMap) (url : String),
      strLeads url "http://" = false → strLeads url "https://" = false →
      lookupHM (aliasSplit url).1 al = none →
      resolveAlias al url = url) ∧
    (∀ (al : AliasMap) (url baseURL : String),
      strLeads url "http://" = false → strLeads url "https://" = false →
      lookupHM (aliasSplit url).1 al = some baseURL →
      resolveAlias al url =
        (if trimOneLeadSlash (aliasSplit url).2 = "" then trimOneSuffixSlash baseURL
         else trimOneSuffixSlash baseURL ++ "/" ++ trimOneLeadSlash (aliasSplit url).2)) := by
  refine ⟨?_, ?_, ?_⟩
  · intro al url h
    rcases h with h | h <;> simp [resolveAlias, h]
  · intro al url h1 h2 hl
    simp [resolveAlias, h1, h2, hl]
  · intro al url baseURL h1 h2 hl
    simp [resolveAlias, h1, h2, hl]

/-- Witness for C6: scenario from the spec — alias `api ->
https://e.com/v1` resolves `api/users` to `https://e.com/v1/users`; a full
URL and an unknown first segment are left unchanged. -/
theorem resolveAlias_identity_and_join_witness :
    resolveAlias [("api", "https://e.com/v1")] "https://other.com/x" = "https://other.com/x" ∧
    resolveAlias [("api", "https://e.com/v1")] "unknown/x" = "unknown/x" ∧
    resolveAlias [("api", "https://e.com/v1")] "api/users" = "https://e.com/v1/users" :=
  ⟨resolveAlias_identity_and_join.1 [("api", "https://e.com/v1")] "https://other.com/x"
      (Or.inr (by decide)),
   resolveAlias_identity_and_join.2.1 [("api", "https://e.com/v1")] "unknown/x"
      (by decide) (by decide) (by decide),
   by
    have h := resolveAlias_identity_and_join.2.2 [("api", "https://e.com/v1")] "api/users"
      "https://e.com/v1" (by decide) (by decide) (by decide)
    rw [h]; decide⟩

/-- C4: for any hostname whose lowercase form is on the metadata denylist
(and any casing of an http/https scheme) `validateURL` fails with the
blocked-metadata-endpoint error and `Client.Do` never dispatches the
request; a host matching the private-pattern set (and not on the
denylist), such as `10.0.0.5`, is allowed with a non-fatal warning. -/
theorem validate_blocks_metadata_allows_private :
    (∀ scheme hostname : String,
      (lowerString scheme = "http" ∨ lowerString scheme = "https") →
      isCloudMetadataEndpoint hostname = true →
      validateURL scheme hostname = .error (.blockedMetadataEndpoint hostname) ∧
      doAttemptsNetwork scheme hostname = false) ∧
    (∀ scheme hostname : String,
      (lowerString scheme = "http" ∨ lowerString scheme = "https") →
      isPrivateOrReservedHost hostname = true →
      isCloudMetadataEndpoint hostname = false →
      ∃ ws : List String,
        validateURL scheme hostname = .ok ws ∧ "private/internal IP" ∈ ws ∧
        doAttemptsNetwork scheme hostname = true) := by
  constructor
  · intro scheme hostname hsch hmeta
    have hne : hostname ≠ "" := by
      intro he; subst he
      simp [isCloudMetadataEndpoint, lowerString, metadataHosts] at hmeta
    have hv : validateURL scheme hostname = .error (.blockedMetadataEndpoint hostname) := by
      rcases hsch with h | h <;>
        simp [validateURL, h, hne, hmeta]
    exact ⟨hv, by simp [doAttemptsNetwork, hv]⟩
  · intro scheme hostname hsch hpriv hmeta
    have hne : hostname ≠ "" := by
      intro he; subst he
      simp [isPrivateOrReservedHost, privatePatterns, strLeads, hasLead] at hpriv
    have hv : validateURL scheme hostname =
        .ok ((if lowerString hostname = "localhost" ∨ lowerString hostname = "127.0.0.1" ∨
            lowerString hostname = "::1" then ["localhost/loopback"] else []) ++
          ["private/internal IP"]) := by
      rcases hsch with h | h <;>
        simp [validateURL, h, hne, hmeta, hpriv]
    refine ⟨_, hv, by simp, by simp [doAttemptsNetwork, hv]⟩

/-- Witness for C4: `169.254.169.254` and mixed-case
`Metadata.Google.Internal` are blocked; `10.0.0.5` is allowed with the
private-range warning. -/
theorem validate_blocks_metadata_allows_private_witness :
    (validateURL "https" "169.254.169.254" =
        .error (.blockedMetadataEndpoint "169.254.169.254") ∧
      doAttemptsNetwork "https" "169.254.169.254" = false) ∧
    (validateURL "HTTP" "Metadata.Google.Internal" =
        .error (.blockedMetadataEndpoint "Metadata.Google.Internal") ∧
      doAttemptsNetwork "HTTP" "Metadata.Google.Internal" = false) ∧
    (∃ ws : List String,
      validateURL "https" "10.0.0.5" = .ok ws ∧ "private/internal IP" ∈ ws ∧
      doAttemptsNetwork "https" "10.0.0.5" = true) :=
  ⟨validate_blocks_metadata_allows_private.1 "https" "169.254.169.254"
      (Or.inr (by decide)) (by decide),
   validate_blocks_metadata_allows_private.1 "HTTP" "Metadata.Google.Internal"
      (Or.inl (by decide)) (by decide),
   validate_blocks_metadata_allows_private.2 "https" "10.0.0.5"
      (Or.inr (by decide)) (by decide) (by decide)⟩

/-- C9: the stored response body is always at most 50 MiB: a wire body
over the cap is truncated to exactly the first 50 MiB with the warning
set (and no error — `readLimitedBody` is total and always returns a
body); a wire body within the cap is stored unchanged with no warning. -/
theorem body_truncated_to_cap_with_warning :
    (∀ wire : List UInt8, MaxResponseSize < wire.length →
      readLimitedBody wire = (wire.take MaxResponseSize, true)) ∧
    (∀ wire : List UInt8, wire.length ≤ MaxResponseSize →
      readLimitedBody wire = (wire, false)) ∧
    (∀ wire : List UInt8,
      (readLimitedBody wire).1.length = min wire.length MaxResponseSize) := by
  refine ⟨?_, ?_, ?_⟩
  · intro wire h
    have hlen : (wire.take (MaxResponseSize + 1)).length = MaxResponseSize + 1 := by
      rw [List.length_take]
      omega
    have hcond : MaxResponseSize < (wire.take (MaxResponseSize + 1)).length := by
      rw [hlen]; omega
    simp only [readLimitedBody, if_pos hcond]
    rw [List.take_take]
    congr 1
  · intro wire h
    have htk : wire.take (MaxResponseSize + 1) = wire :=
      List.take_of_length_le (by omega)
    simp only [readLimitedBody, htk]
    rw [if_neg (by omega)]
  · intro wire
    by_cases h : MaxResponseSize < wire.length
    · have hlen : (wire.take (MaxResponseSize + 1)).length = MaxResponseSize + 1 := by
        rw [List.length_take]; omega
      simp only [readLimitedBody, if_pos (by rw [hlen]; omega : MaxResponseSize <
        (wire.take (MaxResponseSize + 1)).length)]
      rw [List.length_take, hlen]
      omega
    · push_neg at h
      have htk : wire.take (MaxResponseSize + 1) = wire :=
        List.take_of_length_le (by omega)
      simp only [readLimitedBody, htk]
      rw [if_neg (by omega)]
      show wire.length = min wire.length MaxResponseSize
      omega

/-- Witness for C9: a body one byte over the cap is cut to the cap with
the warning; a one-byte body passes through unwarned. -/
theorem body_truncated_to_cap_with_warning_witness :
    readLimitedBody (List.replicate (MaxResponseSize + 1) (0 : UInt8)) =
      ((List.replicate (MaxResponseSize + 1) (0 : UInt8)).take MaxResponseSize, true) ∧
    readLimitedBody [(7 : UInt8)] = ([(7 : UInt8)], false) :=
  ⟨body_truncated_to_cap_with_warning.1 (List.replicate (MaxResponseSize + 1) (0 : UInt8))
      (by rw [List.length_replicate]; omega),
   body_truncated_to_cap_with_warning.2.1 [(7 : UInt8)]
      (by simp [MaxResponseSize])⟩

/-- C5: `runCollectionRun` fails before attempting any request when the
collection is missing (`notFound`) or empty (`emptyCollection`); for a
non-empty collection it attempts each saved request exactly once, in
stored order, returning one result per request — per-item errors are
recorded in the result and never abort the remaining items (the
conclusion holds for every executor oracle, including one that fails on
every item). -/
theorem runCollection_missing_empty_fault_isolated :
    (∀ al exec, runCollectionRun al exec none = .notFound) ∧
    (∀ al exec, runCollectionRun al exec (some []) = .emptyCollection) ∧
    (∀ al exec (reqs : List SavedRequest), reqs ≠ [] →
      runCollectionRun al exec (some reqs) =
        .completed (reqs.map
          (fun r => (r, exec r.method (resolveAlias al r.url) r.headers r.body)))) := by
  refine ⟨fun _ _ => rfl, fun _ _ => rfl, ?_⟩
  intro al exec reqs h
  match reqs, h with
  | r :: rest, _ =>
    simp only [runCollectionRun]
    rw [runItems_eq_map]

/-- A saved request used in the C5 witness. -/
def savedReqA : SavedRequest :=
  { name := "one", method := "GET", url := "https://a.example/x", headers := [], body := "" }

/-- A second saved request used in the C5 witness. -/
def savedReqB : SavedRequest :=
  { name := "two", method := "POST", url := "https://b.example/y", headers := [], body := "{}" }

/-- An executor oracle that fails on every item. -/
def alwaysRefused : String → String → HeaderMap → String → Except String Response :=
  fun _ _ _ _ => .error "connection refused"

/-- Witness for C5: a two-item collection under an all-failing executor
still yields one recorded (error) result per item, in order. -/
theorem runCollection_missing_empty_fault_isolated_witness :
    runCollectionRun [] alwaysRefused (some [savedReqA, savedReqB]) =
      .completed ([savedReqA, savedReqB].map
        (fun r => (r, alwaysRefused r.method (resolveAlias [] r.url) r.headers r.body))) :=
  runCollection_missing_empty_fault_isolated.2.2 [] alwaysRefused [savedReqA, savedReqB]
    (by simp)

-- ===========================================================================
-- Storage engine data model (internal/model, internal/storage/json.go)
-- ===========================================================================

/-- `model.Request`: a history record (timestamps as abstract ticks). -/
structure Request where
  id : String
  timestamp : Nat
  method : String
  url : String
  headers : HeaderMap
  body : String
  response : Option Response
deriving DecidableEq

/-- Generic association-list read (Go map read / SQL lookup by key). -/
def lookupAL {β : Type} (k : String) : List (String × β) → Option β
  | [] => none
  | (k', v) :: rest => if k' = k then some v else lookupAL k rest

/-- Generic association-list write (Go map assignment / SQL upsert). -/
def setAL {β : Type} (m : List (String × β)) (k : String) (v : β) : List (String × β) :=
  match m with
  | [] => [(k, v)]
  | (k', v') :: rest => if k' = k then (k, v) :: rest else (k', v') :: setAL rest k v

/-- Generic association-list delete (Go `delete(map, k)` / SQL DELETE). -/
def removeAL {β : Type} (k : String) : List (String × β) → List (String × β)
  | [] => []
  | p :: rest => if p.1 = k then removeAL k rest else p :: removeAL k rest

/-- First history record with the given id (Go linear scan / SQL QueryRow). -/
def firstWithId (id : String) : List Request → Option Request
  | [] => none
  | r :: rest => if r.id = id then some r else firstWithId id rest

/-- Remove every history row with the given id (the delete half of SQLite
INSERT OR REPLACE on the id primary key). -/
def removeId (id : String) : List Request → List Request
  | [] => []
  | r :: rest => if r.id = id then removeId id rest else r :: removeId id rest

/-- Most-recent-first ordering on history records (ORDER BY timestamp DESC). -/
def tsDescOrder (a b : Request) : Prop := b.timestamp ≤ a.timestamp

instance : DecidableRel tsDescOrder :=
  fun a b => inferInstanceAs (Decidable (b.timestamp ≤ a.timestamp))

instance : IsTotal Request tsDescOrder := ⟨fun a b => Nat.le_total b.timestamp a.timestamp⟩

instance : IsTrans Request tsDescOrder := ⟨fun _ _ _ h1 h2 => Nat.le_trans h2 h1⟩

/-- `ORDER BY timestamp DESC` (stable, as SQLite scans in rowid order). -/
def sortByTsDesc (rows : List Request) : List Request := List.insertionSort tsDescOrder rows

-- ===========================================================================
-- JSON (document-store) backend: internal/storage/json.go JSONStorage
-- ===========================================================================

/-- The three whole-file documents of the JSON backend: `history.json`
(most-recent-first list), `collections.json` (name-keyed map),
`aliases.json` (name-to-URL map). -/
structure JSONState where
  hist : List Request
  cols : List (String × List SavedRequest)
  als : List (String × String)
deriving DecidableEq

/-- Fresh JSON store (no files on disk yet). -/
def jsonInit : JSONState := ⟨[], [], []⟩

/-- `JSONStorage.AddToHistory`: prepend, then keep the first 100. -/
def jsonAddToHistory (s : JSONState) (r : Request) : JSONState :=
  { s with hist := (r :: s.hist).take 100 }

/-- `JSONStorage.ClearHistory`. -/
def jsonClearHistory (s : JSONState) : JSONState := { s with hist := [] }

/-- `JSONStorage.GetHistoryRequest`: first record with the id. -/
def jsonGetHistoryRequest (s : JSONState) (id : String) : Option Request :=
  firstWithId id s.hist

/-- `JSONStorage.LoadHistory`. -/
def jsonLoadHistory (s : JSONState) : List Request := s.hist

/-- `JSONStorage.CreateCollection`: no-op when the name exists. -/
def jsonCreateCollection (s : JSONState) (name : String) : JSONState :=
  if (lookupAL name s.cols).isSome then s else { s with cols := setAL s.cols name [] }

/-- `JSONStorage.DeleteCollection`. -/
def jsonDeleteCollection (s : JSONState) (name : String) : JSONState :=
  { s with cols := removeAL name s.cols }

/-- `JSONStorage.GetCollection` (the requests of the named collection). -/
def jsonGetCollection (s : JSONState) (name : String) : Option (List SavedRequest) :=
  lookupAL name s.cols

/-- `JSONStorage.AddToCollection`: append to the (possibly implicitly
created) collection. -/
def jsonAddToCollection (s : JSONState) (name : String) (req : SavedRequest) : JSONState :=
  { s with cols := setAL s.cols name (((lookupAL name s.cols).getD []) ++ [req]) }

/-- `JSONStorage.LoadCollections` (name-keyed view). -/
def jsonLoadCollections (s : JSONState) : List (String × List SavedRequest) := s.cols

/-- `JSONStorage.CreateAlias` (overwrite semantics). -/
def jsonCreateAlias (s : JSONState) (name url : String) : JSONState :=
  { s with als := setAL s.als name url }

/-- `JSONStorage.DeleteAlias`. -/
def jsonDeleteAlias (s : JSONState) (name : String) : JSONState :=
  { s with als := removeAL name s.als }

/-- `JSONStorage.GetAlias`. -/
def jsonGetAlias (s : JSONState) (name : String) : Option String := lookupAL name s.als

/-- `JSONStorage.LoadAliases`. -/
def jsonLoadAliases (s : JSONState) : List (String × String) := s.als

-- ===========================================================================
-- SQLite (relational) backend: internal/storage/json.go SQLiteStorage
-- ===========================================================================

/-- A `saved_requests` row: collection foreign key, fields, position. -/
structure SavedRow where
  colId : Nat
  req : SavedRequest
  pos : Nat
deriving DecidableEq

/-- The SQLite tables: `history` (rows in insertion order), `collections`
(id, name; id is AUTOINCREMENT via `nextColId`), `saved_requests`,
`aliases`. -/
structure SQLState where
  hist : List Request
  cols : List (Nat × String)
  nextColId : Nat
  reqs : List SavedRow
  als : List (String × String)
deriving DecidableEq

/-- Fresh SQLite store (empty schema). -/
def sqlInit : SQLState := ⟨[], [], 1, [], []⟩

/-- The ids selected by `SELECT id FROM history ORDER BY timestamp DESC
LIMIT 100`. -/
def keepTop100Ids (rows : List Request) : List String :=
  ((sortByTsDesc rows).take 100).map (fun r => r.id)

/-- `DELETE FROM history WHERE id NOT IN (...)`: keep only rows whose id
is among the 100 most recent. -/
def pruneHistory (rows : List Request) : List Request :=
  rows.filter (fun x => (keepTop100Ids rows).contains x.id)

/-- `SQLiteStorage.AddToHistory` on the table rows: INSERT OR REPLACE
(delete any row with the same id, append the new row), then prune. -/
def sqlHistAdd (rows : List Request) (r : Request) : List Request :=
  pruneHistory (removeId r.id rows ++ [r])

/-- `SQLiteStorage.AddToHistory`. -/
def sqlAddToHistory (s : SQLState) (r : Request) : SQLState :=
  { s with hist := sqlHistAdd s.hist r }

/-- `SQLiteStorage.ClearHistory` (`DELETE FROM history`). -/
def sqlClearHistory (s : SQLState) : SQLState := { s with hist := [] }

/-- `SQLiteStorage.GetHistoryRequest` (`WHERE id = ?`). -/
def sqlGetHistoryRequest (s : SQLState) (id : String) : Option Request :=
  firstWithId id s.hist

/-- `SQLiteStorage.LoadHistory` (`ORDER BY timestamp DESC LIMIT 100`). -/
def sqlLoadHistory (s : SQLState) : List Request := (sortByTsDesc s.hist).take 100

/-- `SELECT id FROM collections WHERE name = ?` (first row). -/
def firstColWithName (name : String) : List (Nat × String) → Option Nat
  | [] => none
  | c :: rest => if c.2 = name then some c.1 else firstColWithName name rest

/-- `SELECT ... FROM saved_requests WHERE collection_id = ?`. -/
def rowsOfCol (reqs : List SavedRow) (i : Nat) : List SavedRow :=
  reqs.filter (fun row => row.colId == i)

/-- Position ordering of saved-request rows (`ORDER BY position`). -/
def posLE (a b : SavedRow) : Prop := a.pos ≤ b.pos

instance : DecidableRel posLE := fun a b => inferInstanceAs (Decidable (a.pos ≤ b.pos))

instance : IsTotal SavedRow posLE := ⟨fun a b => Nat.le_total a.pos b.pos⟩

instance : IsTrans SavedRow posLE := ⟨fun _ _ _ h1 h2 => Nat.le_trans h1 h2⟩

/-- `ORDER BY position` (stable). -/
def sortByPos (rows : List SavedRow) : List SavedRow := List.insertionSort posLE rows

/-- The requests of collection `i`, in position order. -/
def colRequests (reqs : List SavedRow) (i : Nat) : List SavedRequest :=
  (sortByPos (rowsOfCol reqs i)).map (fun row => row.req)

/-- `SQLiteStorage.CreateCollection` (`INSERT OR IGNORE`, name UNIQUE). -/
def sqlCreateCollection (s : SQLState) (name : String) : SQLState :=
  match firstColWithName name s.cols with
  | some _ => s
  | none => { s with cols := s.cols ++ [(s.nextColId, name)], nextColId := s.nextColId + 1 }

/-- `SQLiteStorage.DeleteCollection` with `ON DELETE CASCADE` to
`saved_requests`. -/
def sqlDeleteCollection (s : SQLState) (name : String) : SQLState :=
  let removed := (s.cols.filter (fun c => c.2 == name)).map (fun c => c.1)
  { s with cols := s.cols.filter (fun c => !(c.2 == name)),
           reqs := s.reqs.filter (fun row => !(removed.contains row.colId)) }

/-- `SELECT MAX(position) ... WHERE collection_id = ?` (NULL on no rows). -/
def maxPos (rows : List SavedRow) : Option Nat :=
  rows.foldl
    (fun acc row =>
      match acc with
      | none => some row.pos
      | some m => some (Nat.max m row.pos))
    none

/-- The next position: `max + 1`, or `0` when the collection is empty. -/
def nextPosition (rows : List SavedRow) : Nat :=
  match maxPos rows with
  | none => 0
  | some m => m + 1

/-- `SQLiteStorage.AddToCollection`: get or create the collection row,
compute the next position, insert the saved-request row. -/
def sqlAddToCollection (s : SQLState) (name : String) (req : SavedRequest) : SQLState :=
  match firstColWithName name s.cols with
  | some i =>
    { s with reqs := s.reqs ++ [⟨i, req, nextPosition (rowsOfCol s.reqs i)⟩] }
  | none =>
    let i := s.nextColId
    { s with cols := s.cols ++ [(i, name)], nextColId := i + 1,
             reqs := s.reqs ++ [⟨i, req, nextPosition (rowsOfCol s.reqs i)⟩] }

/-- `SQLiteStorage.GetCollection`. -/
def sqlGetCollection (s : SQLState) (name : String) : Option (List SavedRequest) :=
  (firstColWithName name s.cols).map (colRequests s.reqs)

/-- `SQLiteStorage.LoadCollections` (name-keyed view, table order). -/
def sqlLoadCollections (s : SQLState) : List (String × List SavedRequest) :=
  s.cols.map (fun c => (c.2, colRequests s.reqs c.1))

/-- `SQLiteStorage.CreateAlias` (`ON CONFLICT(name) DO UPDATE`). -/
def sqlCreateAlias (s : SQLState) (name url : String) : SQLState :=
  { s with als := setAL s.als name url }

/-- `SQLiteStorage.DeleteAlias`. -/
def sqlDeleteAlias (s : SQLState) (name : String) : SQLState :=
  { s with als := removeAL name s.als }

/-- `SQLiteStorage.GetAlias`. -/
def sqlGetAlias (s : SQLState) (name : String) : Option String := lookupAL name s.als

/-- `SQLiteStorage.LoadAliases`. -/
def sqlLoadAliases (s : SQLState) : List (String × String) := s.als

-- ===========================================================================
-- Storage operation sequences (shared contract of the two backends)
-- ===========================================================================

/-- One storage operation of the shared backend contract. -/
inductive StOp
  | addHistory (r : Request)
  | clearHistory
  | getHistory (id : String)
  | createCollection (name : String)
  | addToCollection (name : String) (req : SavedRequest)
  | deleteCollection (name : String)
  | getCollection (name : String)
  | createAlias (name url : String)
  | deleteAlias (name : String)
  | getAlias (name : String)

/-- The per-operation observable result. -/
inductive OpResult
  | done
  | histReq (r : Option Request)
  | col (c : Option (List SavedRequest))
  | aliasURL (u : Option String)
deriving DecidableEq

/-- One step of the JSON backend. -/
def jsonStep (s : JSONState) : StOp → JSONState × OpResult
  | .addHistory r => (jsonAddToHistory s r, .done)
  | .clearHistory => (jsonClearHistory s, .done)
  | .getHistory id => (s, .histReq (jsonGetHistoryRequest s id))
  | .createCollection name => (jsonCreateCollection s name, .done)
  | .addToCollection name req => (jsonAddToCollection s name req, .done)
  | .deleteCollection name => (jsonDeleteCollection s name, .done)
  | .getCollection name => (s, .col (jsonGetCollection s name))
  | .createAlias name url => (jsonCreateAlias s name url, .done)
  | .deleteAlias name => (jsonDeleteAlias s name, .done)
  | .getAlias name => (s, .aliasURL (jsonGetAlias s name))

/-- One step of the SQLite backend. -/
def sqlStep (s : SQLState) : StOp → SQLState × OpResult
  | .addHistory r => (sqlAddToHistory s r, .done)
  | .clearHistory => (sqlClearHistory s, .done)
  | .getHistory id => (s, .histReq (sqlGetHistoryRequest s id))
  | .createCollection name => (sqlCreateCollection s name, .done)
  | .addToCollection name req => (sqlAddToCollection s name req, .done)
  | .deleteCollection name => (sqlDeleteCollection s name, .done)
  | .getCollection name => (s, .col (sqlGetCollection s name))
  | .createAlias name url => (sqlCreateAlias s name url, .done)
  | .deleteAlias name => (sqlDeleteAlias s name, .done)
  | .getAlias name => (s, .aliasURL (sqlGetAlias s name))

/-- Run a sequence of operations on the JSON backend. -/
def jsonRun : JSONState → List StOp → JSONState × List OpResult
  | s, [] => (s, [])
  | s, op :: rest =>
    let p := jsonStep s op
    let q := jsonRun p.1 rest
    (q.1, p.2 :: q.2)

/-- Run a sequence of operations on the SQLite backend. -/
def sqlRun : SQLState → List StOp → SQLState × List OpResult
  | s, [] => (s, [])
  | s, op :: rest =>
    let p := sqlStep s op
    let q := sqlRun p.1 rest
    (q.1, p.2 :: q.2)

-- ===========================================================================
-- Migration engine (SQLiteStorage.migrateFromJSON)
-- ===========================================================================

/-- The three legacy document files: outer `Option` is existence on disk,
inner `Option` is parse success. -/
structure LegacyFiles where
  historyFile : Option (Option (List Request))
  collectionsFile : Option (Option (List (String × List SavedRequest)))
  aliasesFile : Option (Option (List (String × String)))

/-- Migration outcome: the database plus which legacy files were renamed
with the `.migrated` marker. -/
structure MigrationResult where
  db : SQLState
  renamedHistory : Bool
  renamedCollections : Bool
  renamedAliases : Bool
deriving DecidableEq

/-- Replay one legacy collection: `CreateCollection` then
`AddToCollection` per saved request, in stored order. -/
def replayCollection (s : SQLState) (c : String × List SavedRequest) : SQLState :=
  c.2.foldl (fun st r => sqlAddToCollection st c.1 r) (sqlCreateCollection s c.1)

/-- One per-file migration block: if the file exists (outer `some`),
parses (inner `some`), and holds at least one entry, replay its payload
through `g` and mark the file renamed; otherwise leave the store and the
file untouched. -/
def replayFile {α : Type} (g : SQLState → List α → SQLState) (s : SQLState)
    (f : Option (Option (List α))) : SQLState × Bool :=
  match f with
  | some (some l) => if l.length > 0 then (g s l, true) else (s, false)
  | _ => (s, false)

/-- The history-file migration block: `AddToHistory` per record, in
stored order. -/
def historyReplayed (s : SQLState) (f : Option (Option (List Request))) : SQLState × Bool :=
  replayFile (fun st l => l.foldl sqlAddToHistory st) s f

/-- The collections-file migration block: `CreateCollection` +
`AddToCollection` per saved request. -/
def collectionsReplayed (s : SQLState)
    (f : Option (Option (List (String × List SavedRequest)))) : SQLState × Bool :=
  replayFile (fun st l => l.foldl replayCollection st) s f

/-- The aliases-file migration block: `CreateAlias` per alias. -/
def aliasesReplayed (s : SQLState)
    (f : Option (Option (List (String × String)))) : SQLState × Bool :=
  replayFile (fun st l => l.foldl (fun st2 a => sqlCreateAlias st2 a.1 a.2) st) s f

/-- `SQLiteStorage.migrateFromJSON`: skip when any table is non-empty;
otherwise run the three per-file migration blocks in source order. -/
def migrateFromJSON (s : SQLState) (files : LegacyFiles) : MigrationResult :=
  if s.hist.length > 0 then ⟨s, false, false, false⟩
  else if s.cols.length > 0 then ⟨s, false, false, false⟩
  else if s.als.length > 0 then ⟨s, false, false, false⟩
  else
    let p1 := historyReplayed s files.historyFile
    let p2 := collectionsReplayed p1.1 files.collectionsFile
    let p3 := aliasesReplayed p2.1 files.aliasesFile
    ⟨p3.1, p1.2, p2.2, p3.2⟩

-- ---------------------------------------------------------------------------
-- History lemmas shared by C2 / C8
-- ---------------------------------------------------------------------------

theorem removeId_of_fresh (id : String) (rows : List Request)
    (h : ∀ x ∈ rows, x.id ≠ id) : removeId id rows = rows := by
  induction rows with
  | nil => rfl
  | cons x rest ih =>
    have hx : x.id ≠ id := h x (List.mem_cons_self x rest)
    simp only [removeId, if_neg hx]
    rw [ih (fun y hy => h y (List.mem_cons_of_mem x hy))]

theorem length_keepTop100Ids (rows : List Request) :
    (keepTop100Ids rows).length = min 100 rows.length := by
  simp [keepTop100Ids, sortByTsDesc, List.length_insertionSort]

theorem keepTop100Ids_nodup (rows : List Request)
    (h : (rows.map (fun r => r.id)).Nodup) : (keepTop100Ids rows).Nodup := by
  have hperm : List.Perm ((sortByTsDesc rows).map (fun r => r.id))
      (rows.map (fun r => r.id)) :=
    (List.perm_insertionSort tsDescOrder rows).map _
  have hsortnd : ((sortByTsDesc rows).map (fun r => r.id)).Nodup :=
    hperm.nodup_iff.mpr h
  have hsub : (keepTop100Ids rows).Sublist ((sortByTsDesc rows).map (fun r => r.id)) := by
    simpa [keepTop100Ids, List.map_take] using
      (List.take_sublist 100 (sortByTsDesc rows)).map (fun r => r.id)
  exact hsortnd.sublist hsub

theorem keepTop100Ids_subset (rows : List Request) :
    ∀ i ∈ keepTop100Ids rows, i ∈ rows.map (fun r => r.id) := by
  intro i hi
  simp only [keepTop100Ids, List.map_take] at hi
  have : i ∈ (sortByTsDesc rows).map (fun r => r.id) :=
    (List.take_sublist 100 _).subset hi
  have hperm : List.Perm ((sortByTsDesc rows).map (fun r => r.id))
      (rows.map (fun r => r.id)) :=
    (List.perm_insertionSort tsDescOrder rows).map _
  exact hperm.subset this

theorem filter_contains_length (ids keep : List String)
    (hids : ids.Nodup) (hkeep : keep.Nodup) (hsub : ∀ i ∈ keep, i ∈ ids) :
    (ids.filter (fun i => keep.contains i)).length = keep.length := by
  have hfn : (ids.filter (fun i => keep.contains i)).Nodup :=
    hids.sublist (List.filter_sublist ids)
  have hext : (ids.filter (fun i => keep.contains i)).toFinset = keep.toFinset := by
    ext a
    simp only [List.mem_toFinset, List.mem_filter, List.elem_iff]
    constructor
    · intro h; exact h.2
    · intro h; exact ⟨hsub a h, h⟩
  exact (List.perm_of_nodup_nodup_toFinset_eq hfn hkeep hext).length_eq

theorem pruneHistory_length (rows : List Request)
    (h : (rows.map (fun r => r.id)).Nodup) :
    (pruneHistory rows).length = min rows.length 100 := by
  have hmap : (pruneHistory rows).map (fun r => r.id) =
      (rows.map (fun r => r.id)).filter (fun i => (keepTop100Ids rows).contains i) := by
    rw [pruneHistory, List.filter_map]; rfl
  have hlen : ((pruneHistory rows).map (fun r => r.id)).length =
      (keepTop100Ids rows).length := by
    rw [hmap]
    exact filter_contains_length _ _ h (keepTop100Ids_nodup rows h)
      (keepTop100Ids_subset rows)
  rw [List.length_map] at hlen
  rw [hlen, length_keepTop100Ids]
  omega

theorem pruneHistory_of_le_100 (rows : List Request) (h : rows.length ≤ 100) :
    pruneHistory rows = rows := by
  apply List.filter_eq_self.mpr
  intro x hx
  have hsorted : x ∈ sortByTsDesc rows :=
    (List.perm_insertionSort tsDescOrder rows).symm.subset hx
  have htake : (sortByTsDesc rows).take 100 = sortByTsDesc rows :=
    List.take_of_length_le (by
      rw [sortByTsDesc, List.length_insertionSort]; omega)
  simp only [keepTop100Ids, htake, List.elem_iff]
  exact List.mem_map_of_mem _ hsorted

theorem sqlLoadHistory_sorted (s : SQLState) :
    List.Pairwise tsDescOrder (sqlLoadHistory s) :=
  (List.sorted_insertionSort tsDescOrder s.hist).sublist (List.take_sublist 100 _)

-- ---------------------------------------------------------------------------
-- C2: history bound and ordering on both backends
-- ---------------------------------------------------------------------------

/-- Fold a request sequence through the JSON backend from the fresh store. -/
def jsonAfter (reqs : List Request) : JSONState := reqs.foldl jsonAddToHistory jsonInit

/-- Fold a request sequence through the SQLite backend from the fresh store. -/
def sqlAfter (reqs : List Request) : SQLState := reqs.foldl sqlAddToHistory sqlInit

theorem jsonFold_hist (reqs : List Request) : ∀ (s : JSONState),
    List.Pairwise (fun a b => a.timestamp ≤ b.timestamp) reqs →
    List.Pairwise tsDescOrder s.hist →
    (∀ x ∈ s.hist, ∀ r ∈ reqs, x.timestamp ≤ r.timestamp) →
    s.hist.length ≤ 100 →
    (reqs.foldl jsonAddToHistory s).hist.length = min (s.hist.length + reqs.length) 100 ∧
    List.Pairwise tsDescOrder (reqs.foldl jsonAddToHistory s).hist := by
  induction reqs with
  | nil =>
    intro s _ hsort _ hlen
    constructor
    · simp; omega
    · simpa using hsort
  | cons r rest ih =>
    intro s hts hsort hdom hlen
    have hshist : (jsonAddToHistory s r).hist = (r :: s.hist).take 100 := rfl
    have hsort' : List.Pairwise tsDescOrder (jsonAddToHistory s r).hist := by
      rw [hshist]
      refine List.Pairwise.sublist (List.take_sublist 100 _) ?_
      exact List.pairwise_cons.mpr
        ⟨fun x hx => hdom x hx r (List.mem_cons_self r rest), hsort⟩
    have hdom' : ∀ x ∈ (jsonAddToHistory s r).hist, ∀ r' ∈ rest,
        x.timestamp ≤ r'.timestamp := by
      intro x hx r' hr'
      rw [hshist] at hx
      have hx' : x ∈ r :: s.hist := (List.take_sublist 100 _).subset hx
      rcases List.mem_cons.1 hx' with he | hm
      · subst he
        exact (List.pairwise_cons.1 hts).1 r' hr'
      · exact hdom x hm r' (List.mem_cons_of_mem r hr')
    have hlen' : (jsonAddToHistory s r).hist.length ≤ 100 := by
      rw [hshist, List.length_take]; omega
    have hlen'' : (jsonAddToHistory s r).hist.length = min (s.hist.length + 1) 100 := by
      rw [hshist, List.length_take]; simp; omega
    have hres := ih (jsonAddToHistory s r) (List.pairwise_cons.1 hts).2 hsort' hdom' hlen'
    constructor
    · rw [List.foldl_cons, hres.1, hlen'']
      simp only [List.length_cons]
      omega
    · rw [List.foldl_cons]
      exact hres.2

theorem sqlFold_hist (reqs : List Request) : ∀ (s : SQLState),
    (reqs.map (fun r => r.id)).Nodup →
    (s.hist.map (fun r => r.id)).Nodup →
    (∀ x ∈ s.hist, ∀ r ∈ reqs, x.id ≠ r.id) →
    s.hist.length ≤ 100 →
    (reqs.foldl sqlAddToHistory s).hist.length = min (s.hist.length + reqs.length) 100 ∧
    ((reqs.foldl sqlAddToHistory s).hist.map (fun r => r.id)).Nodup := by
  induction reqs with
  | nil =>
    intro s _ hnd _ hlen
    exact ⟨by simp; omega, hnd⟩
  | cons r rest ih =>
    intro s hids hnd hfresh hlen
    have hrid : ∀ x ∈ s.hist, x.id ≠ r.id :=
      fun x hx => hfresh x hx r (List.mem_cons_self r rest)
    have hins : sqlHistAdd s.hist r = pruneHistory (s.hist ++ [r]) := by
      rw [sqlHistAdd, removeId_of_fresh r.id s.hist hrid]
    have hndins : ((s.hist ++ [r]).map (fun x => x.id)).Nodup := by
      rw [List.map_append]
      simp only [List.map_cons, List.map_nil]
      rw [List.nodup_append]
      refine ⟨hnd, List.nodup_singleton _, ?_⟩
      intro a ha hb
      simp only [List.mem_singleton] at hb
      rcases List.mem_map.1 ha with ⟨x, hx, hxe⟩
      exact hrid x hx (by rw [hxe, hb])
    have hstep : (sqlAddToHistory s r).hist = pruneHistory (s.hist ++ [r]) := hins
    have hsub : ((sqlAddToHistory s r).hist.map (fun x => x.id)).Sublist
        ((s.hist ++ [r]).map (fun x => x.id)) := by
      rw [hstep, pruneHistory]
      exact (List.filter_sublist _).map _
    have hnd' : ((sqlAddToHistory s r).hist.map (fun x => x.id)).Nodup :=
      hndins.sublist hsub
    have hfresh' : ∀ x ∈ (sqlAddToHistory s r).hist, ∀ r' ∈ rest, x.id ≠ r'.id := by
      intro x hx r' hr'
      have hx' : x ∈ s.hist ++ [r] := by
        rw [hstep, pruneHistory] at hx
        exact (List.filter_sublist _).subset hx
      rcases List.mem_append.1 hx' with hm | hm
      · exact hfresh x hm r' (List.mem_cons_of_mem r hr')
      · simp only [List.mem_singleton] at hm
        rw [hm]
        intro he
        have hmem : r'.id ∈ rest.map (fun q => q.id) := List.mem_map_of_mem _ hr'
        rw [← he] at hmem
        simp only [List.map_cons, List.nodup_cons] at hids
        exact hids.1 hmem
    have hlenstep : (sqlAddToHistory s r).hist.length = min (s.hist.length + 1) 100 := by
      rw [hstep, pruneHistory_length _ hndins, List.length_append]
      simp
    have hlen' : (sqlAddToHistory s r).hist.length ≤ 100 := by omega
    have hidrest : (rest.map (fun q => q.id)).Nodup := by
      simp only [List.map_cons, List.nodup_cons] at hids
      exact hids.2
    have hres := ih (sqlAddToHistory s r) hidrest hnd' hfresh' hlen'
    constructor
    · rw [List.foldl_cons, hres.1, hlenstep]
      simp only [List.length_cons]
      omega
    · rw [List.foldl_cons]
      exact hres.2

/-- C2 counterexample requests: out-of-order timestamps and a duplicated id. -/
def reqTs1 : Request := ⟨"a", 1, "GET", "http://x", [], "", none⟩

/-- Timestamp 0, distinct id (older than `reqTs1`). -/
def reqTs0 : Request := ⟨"b", 0, "GET", "http://x", [], "", none⟩

/-- Same id as `reqTs1`, later timestamp. -/
def reqDupA : Request := ⟨"a", 2, "GET", "http://x", [], "", none⟩

/-- C2 counterexample: the claim fails for arbitrary call sequences.  On
the JSON backend, adding a record with an older timestamp after a newer
one leaves the stored history NOT ordered most-recent-first by timestamp
(it is insertion-ordered).  On the SQLite backend, adding two records
with the same id leaves 1 stored row, not min(2,100) = 2 (INSERT OR
REPLACE on the id primary key). -/
theorem addToHistory_unordered_or_duplicate_id_breaks_claim :
    ¬ List.Pairwise tsDescOrder (jsonLoadHistory (jsonAfter [reqTs1, reqTs0])) ∧
    ¬ ((sqlAfter [reqTs1, reqDupA]).hist.length = min 2 100) := by
  constructor
  · decide
  · decide

/-- C2 amended: for call sequences whose requests carry non-decreasing
timestamps and pairwise-distinct ids, after the k-th call the stored
history has length min(k, 100) and is ordered most-recent-first by
timestamp, on both backends (for SQLite both the table itself and the
`LoadHistory` read-back are bounded; the read-back is timestamp-sorted). -/
theorem addToHistory_bounded_ordered (reqs : List Request)
    (hts : List.Pairwise (fun a b => a.timestamp ≤ b.timestamp) reqs)
    (hids : (reqs.map (fun r => r.id)).Nodup) :
    ∀ k, k ≤ reqs.length →
      (jsonLoadHistory (jsonAfter (reqs.take k))).length = min k 100 ∧
      List.Pairwise tsDescOrder (jsonLoadHistory (jsonAfter (reqs.take k))) ∧
      (sqlAfter (reqs.take k)).hist.length = min k 100 ∧
      (sqlLoadHistory (sqlAfter (reqs.take k))).length = min k 100 ∧
      List.Pairwise tsDescOrder (sqlLoadHistory (sqlAfter (reqs.take k))) := by
  intro k hk
  have hts' : List.Pairwise (fun a b => a.timestamp ≤ b.timestamp) (reqs.take k) :=
    hts.sublist (List.take_sublist k reqs)
  have hids' : ((reqs.take k).map (fun r => r.id)).Nodup := by
    rw [List.map_take]
    exact hids.sublist (List.take_sublist k _)
  have hlen : (reqs.take k).length = k := by
    rw [List.length_take]; omega
  have hj := jsonFold_hist (reqs.take k) jsonInit hts' (by simp [jsonInit])
    (by simp [jsonInit]) (by simp [jsonInit])
  have hs := sqlFold_hist (reqs.take k) sqlInit hids' (by simp [sqlInit])
    (by simp [sqlInit]) (by simp [sqlInit])
  have hjlen : (jsonAfter (reqs.take k)).hist.length = min k 100 := by
    have := hj.1
    rw [hlen] at this
    simpa [jsonAfter, jsonInit] using this
  have hslen : (sqlAfter (reqs.take k)).hist.length = min k 100 := by
    have := hs.1
    rw [hlen] at this
    simpa [sqlAfter, sqlInit] using this
  refine ⟨hjlen, ?_, hslen, ?_, sqlLoadHistory_sorted _⟩
  · exact hj.2
  · rw [sqlLoadHistory, List.length_take, sortByTsDesc, List.length_insertionSort, hslen]
    omega

/-- Witness for C2: two distinct-id, increasing-timestamp calls leave
both backends with exactly 2 records, most-recent-first. -/
theorem addToHistory_bounded_ordered_witness :
    (jsonLoadHistory (jsonAfter ([reqTs0, reqTs1].take 2))).length = min 2 100 ∧
    List.Pairwise tsDescOrder (jsonLoadHistory (jsonAfter ([reqTs0, reqTs1].take 2))) ∧
    (sqlAfter ([reqTs0, reqTs1].take 2)).hist.length = min 2 100 ∧
    (sqlLoadHistory (sqlAfter ([reqTs0, reqTs1].take 2))).length = min 2 100 ∧
    List.Pairwise tsDescOrder (sqlLoadHistory (sqlAfter ([reqTs0, reqTs1].take 2))) :=
  addToHistory_bounded_ordered [reqTs0, reqTs1] (by decide) (by decide) 2 (by decide)

-- ---------------------------------------------------------------------------
-- C7: migration lemmas
-- ---------------------------------------------------------------------------

/-- The collection-side fields of the relational store. -/
def colState (s : SQLState) : List (Nat × String) × Nat × List SavedRow :=
  (s.cols, s.nextColId, s.reqs)

theorem replayFile_snd_iff {α : Type} (g : SQLState → List α → SQLState) (s : SQLState)
    (f : Option (Option (List α))) :
    (replayFile g s f).2 = true ↔ ∃ l : List α, f = some (some l) ∧ l ≠ [] := by
  match f with
  | none => simp [replayFile]
  | some none => simp [replayFile]
  | some (some l) =>
    by_cases h : l.length > 0
    · simp only [replayFile, if_pos h]
      constructor
      · intro _
        refine ⟨l, rfl, ?_⟩
        intro he; subst he; simp at h
      · intro _; trivial
    · have hl : l = [] := List.length_eq_zero.mp (by omega)
      subst hl
      simp [replayFile]

theorem foldl_addToHistory_keeps (l : List Request) : ∀ s : SQLState,
    colState (l.foldl sqlAddToHistory s) = colState s ∧
    (l.foldl sqlAddToHistory s).als = s.als := by
  induction l with
  | nil => intro s; exact ⟨rfl, rfl⟩
  | cons r rest ih =>
    intro s
    rw [List.foldl_cons]
    exact ih (sqlAddToHistory s r)

theorem sqlCreateCollection_keeps (s : SQLState) (n : String) :
    (sqlCreateCollection s n).hist = s.hist ∧ (sqlCreateCollection s n).als = s.als := by
  cases h : firstColWithName n s.cols <;> simp [sqlCreateCollection, h]

theorem sqlAddToCollection_keeps (s : SQLState) (n : String) (r : SavedRequest) :
    (sqlAddToCollection s n r).hist = s.hist ∧ (sqlAddToCollection s n r).als = s.als := by
  cases h : firstColWithName n s.cols <;> simp [sqlAddToCollection, h]

theorem foldl_addToCollection_keeps (l : List SavedRequest) (n : String) : ∀ s : SQLState,
    (l.foldl (fun st r => sqlAddToCollection st n r) s).hist = s.hist ∧
    (l.foldl (fun st r => sqlAddToCollection st n r) s).als = s.als := by
  induction l with
  | nil => intro s; exact ⟨rfl, rfl⟩
  | cons r rest ih =>
    intro s
    rw [List.foldl_cons]
    rcases ih (sqlAddToCollection s n r) with ⟨h1, h2⟩
    rcases sqlAddToCollection_keeps s n r with ⟨h3, h4⟩
    exact ⟨h1.trans h3, h2.trans h4⟩

theorem replayCollection_keeps (c : String × List SavedRequest) (s : SQLState) :
    (replayCollection s c).hist = s.hist ∧ (replayCollection s c).als = s.als := by
  rcases foldl_addToCollection_keeps c.2 c.1 (sqlCreateCollection s c.1) with ⟨h1, h2⟩
  rcases sqlCreateCollection_keeps s c.1 with ⟨h3, h4⟩
  exact ⟨h1.trans h3, h2.trans h4⟩

theorem foldl_replayCollection_keeps (cl : List (String × List SavedRequest)) :
    ∀ s : SQLState,
    (cl.foldl replayCollection s).hist = s.hist ∧ (cl.foldl replayCollection s).als = s.als := by
  induction cl with
  | nil => intro s; exact ⟨rfl, rfl⟩
  | cons c rest ih =>
    intro s
    rw [List.foldl_cons]
    rcases ih (replayCollection s c) with ⟨h1, h2⟩
    rcases replayCollection_keeps c s with ⟨h3, h4⟩
    exact ⟨h1.trans h3, h2.trans h4⟩

theorem foldl_createAlias_keeps (al : List (String × String)) : ∀ s : SQLState,
    (al.foldl (fun st a => sqlCreateAlias st a.1 a.2) s).hist = s.hist ∧
    colState (al.foldl (fun st a => sqlCreateAlias st a.1 a.2) s) = colState s ∧
    (al.foldl (fun st a => sqlCreateAlias st a.1 a.2) s).als =
      al.foldl (fun m a => setAL m a.1 a.2) s.als := by
  induction al with
  | nil => intro s; exact ⟨rfl, rfl, rfl⟩
  | cons a rest ih =>
    intro s
    rw [List.foldl_cons, List.foldl_cons]
    rcases ih (sqlCreateAlias s a.1 a.2) with ⟨h1, h2, h3⟩
    exact ⟨h1, h2, h3⟩

theorem historyReplayed_keeps (f : Option (Option (List Request))) (s : SQLState) :
    colState (historyReplayed s f).1 = colState s ∧ (historyReplayed s f).1.als = s.als := by
  match f with
  | none => exact ⟨rfl, rfl⟩
  | some none => exact ⟨rfl, rfl⟩
  | some (some l) =>
    by_cases h : l.length > 0
    · simp only [historyReplayed, replayFile, if_pos h]
      exact foldl_addToHistory_keeps l s
    · simp [historyReplayed, replayFile, if_neg h]

theorem collectionsReplayed_keeps (f : Option (Option (List (String × List SavedRequest))))
    (s : SQLState) :
    (collectionsReplayed s f).1.hist = s.hist ∧ (collectionsReplayed s f).1.als = s.als := by
  match f with
  | none => exact ⟨rfl, rfl⟩
  | some none => exact ⟨rfl, rfl⟩
  | some (some cl) =>
    by_cases h : cl.length > 0
    · simp only [collectionsReplayed, replayFile, if_pos h]
      exact foldl_replayCollection_keeps cl s
    · simp [collectionsReplayed, replayFile, if_neg h]

theorem aliasesReplayed_keeps (f : Option (Option (List (String × String)))) (s : SQLState) :
    (aliasesReplayed s f).1.hist = s.hist ∧ colState (aliasesReplayed s f).1 = colState s := by
  match f with
  | none => exact ⟨rfl, rfl⟩
  | some none => exact ⟨rfl, rfl⟩
  | some (some al) =>
    by_cases h : al.length > 0
    · simp only [aliasesReplayed, replayFile, if_pos h]
      rcases foldl_createAlias_keeps al s with ⟨h1, h2, _⟩
      exact ⟨h1, h2⟩
    · simp [aliasesReplayed, replayFile, if_neg h]

theorem aliasesReplayed_als_congr (f : Option (Option (List (String × String))))
    (s1 s2 : SQLState) (h : s1.als = s2.als) :
    (aliasesReplayed s1 f).1.als = (aliasesReplayed s2 f).1.als := by
  match f with
  | none => exact h
  | some none => exact h
  | some (some al) =>
    by_cases hl : al.length > 0
    · simp only [aliasesReplayed, replayFile, if_pos hl]
      rw [(foldl_createAlias_keeps al s1).2.2, (foldl_createAlias_keeps al s2).2.2, h]
    · simp only [aliasesReplayed, replayFile, if_neg hl]
      exact h

theorem sqlCreateCollection_colState_congr (s1 s2 : SQLState) (n : String)
    (h : colState s1 = colState s2) :
    colState (sqlCreateCollection s1 n) = colState (sqlCreateCollection s2 n) := by
  simp only [colState, Prod.mk.injEq] at h
  obtain ⟨hc, hn, hr⟩ := h
  cases hfc : firstColWithName n s2.cols with
  | none => simp [sqlCreateCollection, hc, hfc, colState, hn, hr]
  | some i => simp [sqlCreateCollection, hc, hfc, colState, hn, hr]

theorem sqlAddToCollection_colState_congr (s1 s2 : SQLState) (n : String) (r : SavedRequest)
    (h : colState s1 = colState s2) :
    colState (sqlAddToCollection s1 n r) = colState (sqlAddToCollection s2 n r) := by
  simp only [colState, Prod.mk.injEq] at h
  obtain ⟨hc, hn, hr⟩ := h
  cases hfc : firstColWithName n s2.cols with
  | none => simp [sqlAddToCollection, hc, hfc, colState, hn, hr]
  | some i => simp [sqlAddToCollection, hc, hfc, colState, hn, hr]

theorem foldl_addToCollection_colState_congr (l : List SavedRequest) (n : String) :
    ∀ s1 s2 : SQLState, colState s1 = colState s2 →
    colState (l.foldl (fun st r => sqlAddToCollection st n r) s1) =
      colState (l.foldl (fun st r => sqlAddToCollection st n r) s2) := by
  induction l with
  | nil => intro s1 s2 h; exact h
  | cons r rest ih =>
    intro s1 s2 h
    rw [List.foldl_cons, List.foldl_cons]
    exact ih _ _ (sqlAddToCollection_colState_congr s1 s2 n r h)

theorem replayCollection_colState_congr (c : String × List SavedRequest)
    (s1 s2 : SQLState) (h : colState s1 = colState s2) :
    colState (replayCollection s1 c) = colState (replayCollection s2 c) :=
  foldl_addToCollection_colState_congr c.2 c.1 _ _
    (sqlCreateCollection_colState_congr s1 s2 c.1 h)

theorem foldl_replayCollection_colState_congr (cl : List (String × List SavedRequest)) :
    ∀ s1 s2 : SQLState, colState s1 = colState s2 →
    colState (cl.foldl replayCollection s1) = colState (cl.foldl replayCollection s2) := by
  induction cl with
  | nil => intro s1 s2 h; exact h
  | cons c rest ih =>
    intro s1 s2 h
    rw [List.foldl_cons, List.foldl_cons]
    exact ih _ _ (replayCollection_colState_congr c s1 s2 h)

theorem collectionsReplayed_colState_congr
    (f : Option (Option (List (String × List SavedRequest))))
    (s1 s2 : SQLState) (h : colState s1 = colState s2) :
    colState (collectionsReplayed s1 f).1 = colState (collectionsReplayed s2 f).1 := by
  match f with
  | none => exact h
  | some none => exact h
  | some (some cl) =>
    by_cases hl : cl.length > 0
    · simp only [collectionsReplayed, replayFile, if_pos hl]
      exact foldl_replayCollection_colState_congr cl s1 s2 h
    · simp only [collectionsReplayed, replayFile, if_neg hl]
      exact h

/-- C7 counterexample: a legacy history file that exists on disk and
parses, but to an empty record list, is NOT renamed with the `.migrated`
marker (the source requires `len(history.Requests) > 0` before renaming),
falsifying the claim that every existing, parsing legacy file is renamed
on successful replay. -/
theorem migrate_parsed_empty_file_not_renamed :
    ¬ ((migrateFromJSON sqlInit ⟨some (some []), none, none⟩).renamedHistory = true) := by
  decide

/-- C7 amended: migration is skipped entirely (store unchanged, no file
renamed) whenever any of history, collections, or aliases is non-empty;
otherwise each of the three legacy files is renamed exactly when it
exists, parses, AND holds at least one entry, in which case its payload
is replayed through the corresponding write operations — and each file is
processed independently: the migrated history depends only on the history
file, the migrated collections only on the collections file, and the
migrated aliases only on the aliases file (so one file's parse failure
never blocks the others). -/
theorem migrateIfEmpty_skip_replay_rename :
    (∀ (s : SQLState) (files : LegacyFiles),
      s.hist ≠ [] ∨ s.cols ≠ [] ∨ s.als ≠ [] →
      migrateFromJSON s files = ⟨s, false, false, false⟩) ∧
    (∀ (s : SQLState) (files : LegacyFiles),
      s.hist = [] → s.cols = [] → s.als = [] →
      ((migrateFromJSON s files).renamedHistory = true ↔
        ∃ l, files.historyFile = some (some l) ∧ l ≠ []) ∧
      ((migrateFromJSON s files).renamedCollections = true ↔
        ∃ l, files.collectionsFile = some (some l) ∧ l ≠ []) ∧
      ((migrateFromJSON s files).renamedAliases = true ↔
        ∃ l, files.aliasesFile = some (some l) ∧ l ≠ []) ∧
      (migrateFromJSON s files).db.hist = (historyReplayed s files.historyFile).1.hist ∧
      colState (migrateFromJSON s files).db =
        colState (collectionsReplayed s files.collectionsFile).1 ∧
      (migrateFromJSON s files).db.als = (aliasesReplayed s files.aliasesFile).1.als) := by
  constructor
  · intro s files h
    by_cases h1 : s.hist.length > 0
    · simp [migrateFromJSON, h1]
    · by_cases h2 : s.cols.length > 0
      · simp [migrateFromJSON, h1, h2]
      · by_cases h3 : s.als.length > 0
        · simp [migrateFromJSON, h1, h2, h3]
        · exfalso
          rcases h with h | h | h
          · exact h (List.length_eq_zero.mp (by omega))
          · exact h (List.length_eq_zero.mp (by omega))
          · exact h (List.length_eq_zero.mp (by omega))
  · intro s files h1 h2 h3
    have e1 : ¬ s.hist.length > 0 := by rw [h1]; simp
    have e2 : ¬ s.cols.length > 0 := by rw [h2]; simp
    have e3 : ¬ s.als.length > 0 := by rw [h3]; simp
    have hm : migrateFromJSON s files =
        ⟨(aliasesReplayed (collectionsReplayed
            (historyReplayed s files.historyFile).1 files.collectionsFile).1
            files.aliasesFile).1,
         (historyReplayed s files.historyFile).2,
         (collectionsReplayed (historyReplayed s files.historyFile).1
            files.collectionsFile).2,
         (aliasesReplayed (collectionsReplayed
            (historyReplayed s files.historyFile).1 files.collectionsFile).1
            files.aliasesFile).2⟩ := by
      simp [migrateFromJSON, e1, e2, e3]
    have hcrsnd : ∀ (s1 s2 : SQLState)
        (f : Option (Option (List (String × List SavedRequest)))),
        (collectionsReplayed s1 f).2 = (collectionsReplayed s2 f).2 := by
      intro s1 s2 f
      match f with
      | none => rfl
      | some none => rfl
      | some (some cl) =>
        by_cases hl : cl.length > 0 <;>
          simp [collectionsReplayed, replayFile, hl]
    have harsnd : ∀ (s1 s2 : SQLState) (f : Option (Option (List (String × String)))),
        (aliasesReplayed s1 f).2 = (aliasesReplayed s2 f).2 := by
      intro s1 s2 f
      match f with
      | none => rfl
      | some none => rfl
      | some (some al) =>
        by_cases hl : al.length > 0 <;>
          simp [aliasesReplayed, replayFile, hl]
    rw [hm]
    refine ⟨?_, ?_, ?_, ?_, ?_, ?_⟩
    · exact replayFile_snd_iff _ s files.historyFile
    · rw [hcrsnd _ s files.collectionsFile]
      exact replayFile_snd_iff _ s files.collectionsFile
    · rw [harsnd _ s files.aliasesFile]
      exact replayFile_snd_iff _ s files.aliasesFile
    · rw [(aliasesReplayed_keeps files.aliasesFile _).1,
        (collectionsReplayed_keeps files.collectionsFile _).1]
    · rw [(aliasesReplayed_keeps files.aliasesFile _).2]
      exact collectionsReplayed_colState_congr files.collectionsFile _ s
        (historyReplayed_keeps files.historyFile s).1
    · rw [aliasesReplayed_als_congr files.aliasesFile _ s
        ((collectionsReplayed_keeps files.collectionsFile _).2.trans
          (historyReplayed_keeps files.historyFile s).2)]

/-- Witness for C7: a store holding one history row skips migration; on
the empty store a one-record history file is renamed while an existing
but unparsable collections file is not, without blocking the history
migration. -/
theorem migrateIfEmpty_skip_replay_rename_witness :
    migrateFromJSON ⟨[reqTs1], [], 1, [], []⟩ ⟨some (some [reqTs0]), none, none⟩ =
      ⟨⟨[reqTs1], [], 1, [], []⟩, false, false, false⟩ ∧
    (migrateFromJSON sqlInit ⟨some (some [reqTs1]), some none, none⟩).renamedHistory = true ∧
    ¬ ((migrateFromJSON sqlInit
        ⟨some (some [reqTs1]), some none, none⟩).renamedCollections = true) :=
  ⟨migrateIfEmpty_skip_replay_rename.1 ⟨[reqTs1], [], 1, [], []⟩
      ⟨some (some [reqTs0]), none, none⟩ (Or.inl (by decide)),
   ((migrateIfEmpty_skip_replay_rename.2 sqlInit
      ⟨some (some [reqTs1]), some none, none⟩ rfl rfl rfl).1).mpr
      ⟨[reqTs1], rfl, by decide⟩,
   fun hc =>
     by
      rcases ((migrateIfEmpty_skip_replay_rename.2 sqlInit
        ⟨some (some [reqTs1]), some none, none⟩ rfl rfl rfl).2.1).mp hc with ⟨l, he, _⟩
      cases he⟩

-- ---------------------------------------------------------------------------
-- C8: backend simulation — history lemmas under strict timestamps
-- ---------------------------------------------------------------------------

theorem firstWithId_none_iff (id : String) (l : List Request) :
    firstWithId id l = none ↔ ∀ x ∈ l, x.id ≠ id := by
  induction l with
  | nil => simp [firstWithId]
  | cons r rest ih =>
    by_cases h : r.id = id
    · simp [firstWithId, h]
    · simp [firstWithId, h, ih]

theorem firstWithId_some_mem (id : String) (l : List Request) (x : Request)
    (h : firstWithId id l = some x) : x ∈ l ∧ x.id = id := by
  induction l with
  | nil => simp [firstWithId] at h
  | cons r rest ih =>
    by_cases hr : r.id = id
    · simp only [firstWithId, if_pos hr, Option.some.injEq] at h
      subst h
      exact ⟨List.mem_cons_self r rest, hr⟩
    · simp only [firstWithId, if_neg hr] at h
      rcases ih h with ⟨h1, h2⟩
      exact ⟨List.mem_cons_of_mem r h1, h2⟩

theorem firstWithId_unique (id : String) (l : List Request)
    (hn : (l.map (fun r => r.id)).Nodup) (x : Request) (hx : x ∈ l) (hid : x.id = id) :
    firstWithId id l = some x := by
  induction l with
  | nil => cases hx
  | cons r rest ih =>
    simp only [List.map_cons, List.nodup_cons] at hn
    rcases List.mem_cons.1 hx with he | hm
    · subst he
      simp [firstWithId, hid]
    · by_cases hr : r.id = id
      · exfalso
        apply hn.1
        rw [hr, ← hid]
        exact List.mem_map_of_mem _ hm
      · simp only [firstWithId, if_neg hr]
        exact ih hn.2 hm

theorem firstWithId_reverse (id : String) (l : List Request)
    (hn : (l.map (fun r => r.id)).Nodup) :
    firstWithId id l.reverse = firstWithId id l := by
  cases h : firstWithId id l with
  | none =>
    rw [firstWithId_none_iff] at h ⊢
    intro x hx
    exact h x (List.mem_reverse.1 hx)
  | some x =>
    rcases firstWithId_some_mem id l x h with ⟨hm, hid⟩
    have hn' : (l.reverse.map (fun r => r.id)).Nodup := by
      rw [List.map_reverse]
      exact List.nodup_reverse.mpr hn
    exact firstWithId_unique id l.reverse hn' x (List.mem_reverse.2 hm) hid

theorem orderedInsert_all_not (b : Request) (m : List Request)
    (h : ∀ y ∈ m, ¬ tsDescOrder b y) :
    List.orderedInsert tsDescOrder b m = m ++ [b] := by
  induction m with
  | nil => rfl
  | cons y rest ih =>
    have hy : ¬ tsDescOrder b y := h y (List.mem_cons_self y rest)
    simp only [List.orderedInsert, if_neg hy]
    rw [ih (fun z hz => h z (List.mem_cons_of_mem y hz))]
    rfl

theorem sortByTsDesc_strictInc (rows : List Request)
    (h : List.Pairwise (fun a b => a.timestamp < b.timestamp) rows) :
    sortByTsDesc rows = rows.reverse := by
  induction rows with
  | nil => rfl
  | cons x t ih =>
    rcases List.pairwise_cons.1 h with ⟨hx, ht⟩
    show List.orderedInsert tsDescOrder x (sortByTsDesc t) = (x :: t).reverse
    rw [ih ht]
    rw [orderedInsert_all_not x t.reverse (by
      intro y hy
      have : x.timestamp < y.timestamp := hx y (List.mem_reverse.1 hy)
      simp only [tsDescOrder]
      omega)]
    simp

theorem sqlHistAdd_strict (rows : List Request) (r : Request)
    (hinc : List.Pairwise (fun a b => a.timestamp < b.timestamp) rows)
    (hts : ∀ x ∈ rows, x.timestamp < r.timestamp)
    (hids : (rows.map (fun q => q.id)).Nodup)
    (hfresh : ∀ x ∈ rows, x.id ≠ r.id)
    (hlen : rows.length ≤ 100) :
    sqlHistAdd rows r =
      if rows.length < 100 then rows ++ [r] else rows.tail ++ [r] := by
  have hrm : removeId r.id rows = rows := removeId_of_fresh r.id rows hfresh
  rw [sqlHistAdd, hrm]
  by_cases hl : rows.length < 100
  · rw [if_pos hl]
    exact pruneHistory_of_le_100 _ (by rw [List.length_append]; simp; omega)
  · rw [if_neg hl]
    have h100 : rows.length = 100 := by omega
    match rows, h100 with
    | h :: t, h100 =>
      have htlen : t.length = 99 := by simpa using h100
      have hinc' : List.Pairwise (fun a b => a.timestamp < b.timestamp)
          ((h :: t) ++ [r]) := by
        rw [List.pairwise_append]
        refine ⟨hinc, List.pairwise_singleton _ _, ?_⟩
        intro a ha b hb
        simp only [List.mem_singleton] at hb
        subst hb
        exact hts a ha
      have hsort : sortByTsDesc ((h :: t) ++ [r]) = r :: (t.reverse ++ [h]) := by
        rw [sortByTsDesc_strictInc _ hinc']
        simp
      have htake : (sortByTsDesc ((h :: t) ++ [r])).take 100 = r :: t.reverse := by
        rw [hsort]
        show r :: (t.reverse ++ [h]).take 99 = r :: t.reverse
        congr 1
        have : t.reverse.length = 99 := by simpa using htlen
        rw [← this, List.take_left]
      have hkeep : keepTop100Ids ((h :: t) ++ [r]) =
          r.id :: t.reverse.map (fun q => q.id) := by
        rw [keepTop100Ids, htake]
        rfl
      rw [pruneHistory, hkeep]
      have hhid : ((r.id :: t.reverse.map (fun q => q.id)).contains h.id) = false := by
        simp only [List.contains_cons]
        rw [Bool.or_eq_false_iff]
        constructor
        · rw [beq_eq_false_iff_ne]
          exact hfresh h (List.mem_cons_self h t)
        · rw [← Bool.not_eq_true, List.elem_iff]
          intro hmem
          rw [List.map_reverse, List.mem_reverse] at hmem
          simp only [List.map_cons, List.nodup_cons] at hids
          exact hids.1 hmem
      show ((h :: (t ++ [r])).filter fun x =>
          (r.id :: t.reverse.map (fun q => q.id)).contains x.id) = t ++ [r]
      rw [List.filter_cons_of_neg (by
        simp only [List.contains_cons, Bool.or_eq_true, beq_iff_eq, List.elem_iff,
          List.map_reverse, List.mem_reverse, List.mem_map, not_or]
        constructor
        · exact hfresh h (List.mem_cons_self h t)
        · rintro ⟨x, hx, he⟩
          simp only [List.map_cons, List.nodup_cons] at hids
          exact hids.1 (he ▸ List.mem_map_of_mem (fun q => q.id) hx))]
      apply List.filter_eq_self.mpr
      intro x hx
      rcases List.mem_append.1 hx with hm | hm
      · simp only [List.contains_cons]
        apply Bool.or_eq_true_iff.mpr
        right
        rw [List.elem_iff, List.map_reverse, List.mem_reverse]
        exact List.mem_map_of_mem _ hm
      · simp only [List.mem_singleton] at hm
        subst hm
        simp [List.contains_cons]

-- ---------------------------------------------------------------------------
-- C8: collection-view lemmas
-- ---------------------------------------------------------------------------

theorem lookupAL_map_view (cols : List (Nat × String)) (g : Nat → List SavedRequest)
    (name : String) :
    lookupAL name (cols.map (fun c => (c.2, g c.1))) =
      (firstColWithName name cols).map g := by
  induction cols with
  | nil => rfl
  | cons c rest ih =>
    by_cases hc : c.2 = name
    · simp [lookupAL, firstColWithName, hc]
    · simp [lookupAL, firstColWithName, hc, ih]

theorem setAL_append_of_none {β : Type} (m : List (String × β)) (k : String) (v : β)
    (h : lookupAL k m = none) : setAL m k v = m ++ [(k, v)] := by
  induction m with
  | nil => rfl
  | cons p rest ih =>
    by_cases hp : p.1 = k
    · simp [lookupAL, hp] at h
    · simp only [lookupAL, if_neg hp] at h
      simp [setAL, hp, ih h]

theorem firstColWithName_none_iff (name : String) (cols : List (Nat × String)) :
    firstColWithName name cols = none ↔ ∀ c ∈ cols, c.2 ≠ name := by
  induction cols with
  | nil => simp [firstColWithName]
  | cons c rest ih =>
    by_cases hc : c.2 = name
    · simp [firstColWithName, hc]
    · simp [firstColWithName, hc, ih]

theorem firstColWithName_some_mem (name : String) (cols : List (Nat × String)) (i : Nat)
    (h : firstColWithName name cols = some i) : (i, name) ∈ cols := by
  induction cols with
  | nil => simp [firstColWithName] at h
  | cons c rest ih =>
    by_cases hc : c.2 = name
    · simp only [firstColWithName, if_pos hc, Option.some.injEq] at h
      have hce : c = (i, name) := Prod.ext h hc
      rw [← hce]
      exact List.mem_cons_self c rest
    · simp only [firstColWithName, if_neg hc] at h
      exact List.mem_cons_of_mem c (ih h)

theorem removeAL_map_view (cols : List (Nat × String)) (g : Nat → List SavedRequest)
    (name : String) :
    removeAL name (cols.map (fun c => (c.2, g c.1))) =
      (cols.filter (fun c => !(c.2 == name))).map (fun c => (c.2, g c.1)) := by
  induction cols with
  | nil => rfl
  | cons c rest ih =>
    by_cases hc : c.2 = name
    · simp [removeAL, List.filter_cons, hc, ih]
    · simp [removeAL, List.filter_cons, hc, ih]

theorem setAL_map_view (cols : List (Nat × String)) (g g' : Nat → List SavedRequest)
    (name : String) (i : Nat) (v : List SavedRequest)
    (hids : (cols.map (fun c => c.1)).Nodup)
    (hfind : firstColWithName name cols = some i)
    (hg : ∀ jj, jj ≠ i → g' jj = g jj) (hgi : g' i = v) :
    cols.map (fun c => (c.2, g' c.1)) = setAL (cols.map (fun c => (c.2, g c.1))) name v := by
  induction cols with
  | nil => simp [firstColWithName] at hfind
  | cons c rest ih =>
    simp only [List.map_cons, List.nodup_cons] at hids
    by_cases hc : c.2 = name
    · simp only [firstColWithName, if_pos hc, Option.some.injEq] at hfind
      simp only [List.map_cons, setAL, if_pos hc]
      rw [hc, hfind, hgi]
      congr 1
      apply List.map_congr_left
      intro d hd
      have hdi : d.1 ≠ i := by
        intro he
        apply hids.1
        rw [hfind, ← he]
        exact List.mem_map_of_mem _ hd
      rw [hg d.1 hdi]
    · simp only [firstColWithName, if_neg hc] at hfind
      have hci : c.1 ≠ i := by
        intro he
        apply hids.1
        rw [he]
        exact List.mem_map_of_mem (fun q => q.1) (firstColWithName_some_mem name rest i hfind)
      simp only [List.map_cons, setAL, if_neg hc]
      rw [hg c.1 hci]
      congr 1
      exact ih hids.2 hfind

theorem maxStepFold_acc (rows : List SavedRow) : ∀ (a : Nat),
    ∃ m, rows.foldl
        (fun acc row =>
          match acc with
          | none => some row.pos
          | some m => some (Nat.max m row.pos))
        (some a) = some m ∧ a ≤ m := by
  induction rows with
  | nil => intro a; exact ⟨a, rfl, Nat.le_refl a⟩
  | cons x t ih =>
    intro a
    rw [List.foldl_cons]
    rcases ih (Nat.max a x.pos) with ⟨m, hm, hle⟩
    exact ⟨m, hm, Nat.le_trans (Nat.le_max_left a x.pos) hle⟩

theorem maxStepFold_mem (rows : List SavedRow) : ∀ (a : Nat) (row : SavedRow),
    row ∈ rows →
    ∃ m, rows.foldl
        (fun acc row =>
          match acc with
          | none => some row.pos
          | some m => some (Nat.max m row.pos))
        (some a) = some m ∧ row.pos ≤ m := by
  induction rows with
  | nil => intro a row h; cases h
  | cons x t ih =>
    intro a row h
    rw [List.foldl_cons]
    rcases List.mem_cons.1 h with he | hm
    · subst he
      rcases maxStepFold_acc t (Nat.max a row.pos) with ⟨m, hm', hle⟩
      exact ⟨m, hm', Nat.le_trans (Nat.le_max_right a row.pos) hle⟩
    · exact ih (Nat.max a x.pos) row hm

theorem maxPos_ge_elem (rows : List SavedRow) (row : SavedRow) (h : row ∈ rows) :
    ∃ m, maxPos rows = some m ∧ row.pos ≤ m := by
  cases rows with
  | nil => cases h
  | cons x t =>
    rw [maxPos, List.foldl_cons]
    rcases List.mem_cons.1 h with he | hm
    · subst he
      exact maxStepFold_acc t row.pos
    · exact maxStepFold_mem t x.pos row hm

theorem nextPosition_gt (rows : List SavedRow) (row : SavedRow) (h : row ∈ rows) :
    row.pos < nextPosition rows := by
  rcases maxPos_ge_elem rows row h with ⟨m, hm, hle⟩
  simp only [nextPosition, hm]
  omega

theorem rowsOfCol_append (reqs : List SavedRow) (row : SavedRow) (i : Nat) :
    rowsOfCol (reqs ++ [row]) i =
      rowsOfCol reqs i ++ (if row.colId = i then [row] else []) := by
  rw [rowsOfCol, List.filter_append]
  congr 1
  by_cases h : row.colId = i
  · simp [h]
  · simp [List.filter_cons, h]

theorem rowsOfCol_nil_of_ne (reqs : List SavedRow) (n : Nat)
    (h : ∀ row ∈ reqs, row.colId ≠ n) : rowsOfCol reqs n = [] := by
  rw [rowsOfCol, List.filter_eq_nil_iff]
  intro row hrow
  simp only [beq_iff_eq]
  exact h row hrow

theorem sortByPos_of_strict (rows : List SavedRow)
    (h : List.Pairwise (fun a b => a.pos < b.pos) rows) : sortByPos rows = rows := by
  have hs : List.Sorted posLE rows := h.imp (fun hab => Nat.le_of_lt hab)
  exact hs.insertionSort_eq

theorem rowsOfCol_filter_excluded (reqs : List SavedRow) (removed : List Nat) (i : Nat)
    (h : i ∉ removed) :
    rowsOfCol (reqs.filter (fun row => !(removed.contains row.colId))) i =
      rowsOfCol reqs i := by
  rw [rowsOfCol, rowsOfCol, List.filter_filter]
  apply List.filter_congr
  intro row _
  by_cases hri : row.colId = i
  · subst hri
    have hcont : removed.contains row.colId = false := by
      rw [← Bool.not_eq_true, List.elem_iff]
      exact h
    simp [hcont, h]
  · simp [hri]

-- ---------------------------------------------------------------------------
-- C8: simulation invariants
-- ---------------------------------------------------------------------------

/-- History-table invariant under the equivalence hypotheses: rows in
insertion order carry strictly increasing timestamps, distinct ids, and
never exceed the 100-row cap. -/
def HistInvStrict (rows : List Request) : Prop :=
  List.Pairwise (fun a b => a.timestamp < b.timestamp) rows ∧
  (rows.map (fun r => r.id)).Nodup ∧
  rows.length ≤ 100

/-- Relational collection-table invariant: unique names and ids, ids
below the AUTOINCREMENT counter, no orphan saved-request rows, and
per-collection positions strictly increasing in table order. -/
def ColsInv (s : SQLState) : Prop :=
  (s.cols.map (fun c => c.2)).Nodup ∧
  (s.cols.map (fun c => c.1)).Nodup ∧
  (∀ c ∈ s.cols, c.1 < s.nextColId) ∧
  (∀ row ∈ s.reqs, row.colId ∈ s.cols.map (fun c => c.1)) ∧
  (∀ i : Nat, List.Pairwise (fun a b => a.pos < b.pos) (rowsOfCol s.reqs i))

/-- The coupling between a document store and a relational store: the
JSON history list is the reversed table, the collections document is
exactly the relational read-back view, the alias maps agree, and the
relational invariants hold. -/
def Coupled (j : JSONState) (s : SQLState) : Prop :=
  j.hist = s.hist.reverse ∧ HistInvStrict s.hist ∧ ColsInv s ∧
  j.cols = sqlLoadCollections s ∧ j.als = s.als

/-- The history records added by an operation sequence. -/
def addsOf (ops : List StOp) : List Request :=
  ops.filterMap
    (fun op =>
      match op with
      | .addHistory r => some r
      | _ => none)

/-- The equivalence hypotheses on an operation sequence: AddToHistory
calls carry strictly increasing timestamps and pairwise-distinct ids. -/
def OpsOK (ops : List StOp) : Prop :=
  List.Pairwise (fun a b => a.timestamp < b.timestamp) (addsOf ops) ∧
  ((addsOf ops).map (fun r => r.id)).Nodup

/-- Every future history add dominates the current table rows. -/
def Ahead (rows : List Request) (ops : List StOp) : Prop :=
  ∀ r ∈ addsOf ops, ∀ x ∈ rows, x.timestamp < r.timestamp ∧ x.id ≠ r.id

-- ---------------------------------------------------------------------------
-- C8: per-operation step lemmas
-- ---------------------------------------------------------------------------

theorem step_addHistory (j : JSONState) (s : SQLState) (r : Request)
    (hc : Coupled j s)
    (hts : ∀ x ∈ s.hist, x.timestamp < r.timestamp)
    (hfresh : ∀ x ∈ s.hist, x.id ≠ r.id) :
    Coupled (jsonAddToHistory j r) (sqlAddToHistory s r) ∧
    (∀ x ∈ (sqlAddToHistory s r).hist, x ∈ s.hist ∨ x = r) := by
  obtain ⟨hj, ⟨hinc, hids, hlen⟩, hci, hcols, hals⟩ := hc
  have hadd := sqlHistAdd_strict s.hist r hinc hts hids hfresh hlen
  have hsqlhist : (sqlAddToHistory s r).hist = sqlHistAdd s.hist r := rfl
  by_cases hl : s.hist.length < 100
  · rw [if_pos hl] at hadd
    have hjlen : j.hist.length < 100 := by
      rw [hj, List.length_reverse]; exact hl
    have hjhist : (jsonAddToHistory j r).hist = r :: j.hist := by
      show (r :: j.hist).take 100 = r :: j.hist
      apply List.take_of_length_le
      simp only [List.length_cons]
      omega
    refine ⟨⟨?_, ⟨?_, ?_, ?_⟩, hci, hcols, hals⟩, ?_⟩
    · rw [hjhist, hsqlhist, hadd, hj]
      simp
    · rw [hsqlhist, hadd, List.pairwise_append]
      exact ⟨hinc, List.pairwise_singleton _ _, by
        intro a ha b hb
        simp only [List.mem_singleton] at hb
        subst hb
        exact hts a ha⟩
    · rw [hsqlhist, hadd, List.map_append, List.nodup_append]
      refine ⟨hids, by simp, ?_⟩
      intro a ha hb
      simp only [List.map_cons, List.map_nil, List.mem_singleton] at hb
      rcases List.mem_map.1 ha with ⟨x, hx, hxe⟩
      exact hfresh x hx (by rw [hxe, hb])
    · rw [hsqlhist, hadd, List.length_append]
      simp only [List.length_singleton]
      omega
    · intro x hx
      rw [hsqlhist, hadd] at hx
      rcases List.mem_append.1 hx with hm | hm
      · exact Or.inl hm
      · simp only [List.mem_singleton] at hm
        exact Or.inr hm
  · rw [if_neg hl] at hadd
    have h100 : s.hist.length = 100 := by omega
    match hshape : s.hist, h100 with
    | h :: t, h100 =>
      have htlen : t.length = 99 := by simpa using h100
      have htail : (h :: t).tail = t := rfl
      have hjhist : (jsonAddToHistory j r).hist = r :: t.reverse := by
        show (r :: j.hist).take 100 = r :: t.reverse
        rw [hj, hshape]
        show r :: ((h :: t).reverse.take 99) = r :: t.reverse
        congr 1
        rw [List.reverse_cons]
        have : t.reverse.length = 99 := by simpa using htlen
        rw [← this, List.take_left]
      rw [hshape] at hadd hts hfresh hinc hids
      simp only [List.tail_cons] at hadd
      have hinct : List.Pairwise (fun a b => a.timestamp < b.timestamp) t :=
        (List.pairwise_cons.1 hinc).2
      have hidst : (t.map (fun q => q.id)).Nodup := by
        simp only [List.map_cons, List.nodup_cons] at hids
        exact hids.2
      refine ⟨⟨?_, ⟨?_, ?_, ?_⟩, hci, hcols, hals⟩, ?_⟩
      · rw [hjhist, hsqlhist, hshape, hadd]
        simp
      · rw [hsqlhist, hshape, hadd, List.pairwise_append]
        exact ⟨hinct, List.pairwise_singleton _ _, by
          intro a ha b hb
          simp only [List.mem_singleton] at hb
          subst hb
          exact hts a (List.mem_cons_of_mem h ha)⟩
      · rw [hsqlhist, hshape, hadd, List.map_append, List.nodup_append]
        refine ⟨hidst, by simp, ?_⟩
        intro a ha hb
        simp only [List.map_cons, List.map_nil, List.mem_singleton] at hb
        rcases List.mem_map.1 ha with ⟨x, hx, hxe⟩
        exact hfresh x (List.mem_cons_of_mem h hx) (by rw [hxe, hb])
      · rw [hsqlhist, hshape, hadd, List.length_append]
        simp only [List.length_singleton]
        omega
      · intro x hx
        rw [hsqlhist, hshape, hadd] at hx
        rcases List.mem_append.1 hx with hm | hm
        · exact Or.inl (List.mem_cons_of_mem h hm)
        · simp only [List.mem_singleton] at hm
          exact Or.inr hm

theorem step_clearHistory (j : JSONState) (s : SQLState) (hc : Coupled j s) :
    Coupled (jsonClearHistory j) (sqlClearHistory s) := by
  obtain ⟨_, _, hci, hcols, hals⟩ := hc
  exact ⟨rfl, ⟨List.Pairwise.nil, List.nodup_nil, Nat.zero_le 100⟩, hci, hcols, hals⟩

theorem step_getHistory (j : JSONState) (s : SQLState) (id : String) (hc : Coupled j s) :
    jsonGetHistoryRequest j id = sqlGetHistoryRequest s id := by
  obtain ⟨hj, ⟨_, hids, _⟩, _, _, _⟩ := hc
  rw [jsonGetHistoryRequest, sqlGetHistoryRequest, hj]
  exact firstWithId_reverse id s.hist hids

theorem ids_lt_of_ColsInv (s : SQLState) (hlt : ∀ c ∈ s.cols, c.1 < s.nextColId) :
    ∀ a ∈ s.cols.map (fun c => c.1), a < s.nextColId := by
  intro a ha
  rcases List.mem_map.1 ha with ⟨c, hcm, hce⟩
  rw [← hce]
  exact hlt c hcm

theorem colRequests_fresh_nil (s : SQLState)
    (hlt : ∀ c ∈ s.cols, c.1 < s.nextColId)
    (horph : ∀ row ∈ s.reqs, row.colId ∈ s.cols.map (fun c => c.1)) :
    colRequests s.reqs s.nextColId = [] := by
  rw [colRequests, rowsOfCol_nil_of_ne]
  · rfl
  · intro row hrow he
    have := ids_lt_of_ColsInv s hlt row.colId (horph row hrow)
    omega

theorem step_createCollection (j : JSONState) (s : SQLState) (name : String)
    (hc : Coupled j s) :
    Coupled (jsonCreateCollection j name) (sqlCreateCollection s name) ∧
    (sqlCreateCollection s name).hist = s.hist := by
  obtain ⟨hj, hhi, ⟨hnames, hidsn, hlt, horph, hpos⟩, hcols, hals⟩ := hc
  have hlook : lookupAL name j.cols =
      (firstColWithName name s.cols).map (colRequests s.reqs) := by
    rw [hcols, sqlLoadCollections]
    exact lookupAL_map_view s.cols _ name
  cases hf : firstColWithName name s.cols with
  | some i =>
    have hj1 : jsonCreateCollection j name = j := by
      simp [jsonCreateCollection, hlook, hf]
    have hs1 : sqlCreateCollection s name = s := by
      simp [sqlCreateCollection, hf]
    rw [hj1, hs1]
    exact ⟨⟨hj, hhi, ⟨hnames, hidsn, hlt, horph, hpos⟩, hcols, hals⟩, rfl⟩
  | none =>
    have hnone : lookupAL name j.cols = none := by rw [hlook, hf]; rfl
    have hj1 : jsonCreateCollection j name = { j with cols := setAL j.cols name [] } := by
      simp [jsonCreateCollection, hnone]
    have hs1 : sqlCreateCollection s name =
        { s with cols := s.cols ++ [(s.nextColId, name)],
                 nextColId := s.nextColId + 1 } := by
      simp [sqlCreateCollection, hf]
    have hfreshname : ∀ c ∈ s.cols, c.2 ≠ name := (firstColWithName_none_iff name s.cols).1 hf
    rw [hj1, hs1]
    refine ⟨⟨hj, hhi, ⟨?_, ?_, ?_, ?_, hpos⟩, ?_, hals⟩, rfl⟩
    · show ((s.cols ++ [(s.nextColId, name)]).map (fun c => c.2)).Nodup
      rw [List.map_append, List.nodup_append]
      refine ⟨hnames, by simp, ?_⟩
      intro a ha hb
      simp only [List.map_cons, List.map_nil, List.mem_singleton] at hb
      rcases List.mem_map.1 ha with ⟨c, hcm, hce⟩
      exact hfreshname c hcm (by rw [hce, hb])
    · show ((s.cols ++ [(s.nextColId, name)]).map (fun c => c.1)).Nodup
      rw [List.map_append, List.nodup_append]
      refine ⟨hidsn, by simp, ?_⟩
      intro a ha hb
      simp only [List.map_cons, List.map_nil, List.mem_singleton] at hb
      have := ids_lt_of_ColsInv s hlt a ha
      omega
    · intro c hcm
      rcases List.mem_append.1 hcm with hm | hm
      · have := hlt c hm
        show c.1 < s.nextColId + 1
        omega
      · simp only [List.mem_singleton] at hm
        subst hm
        show s.nextColId < s.nextColId + 1
        omega
    · intro row hrow
      show row.colId ∈ (s.cols ++ [(s.nextColId, name)]).map (fun c => c.1)
      rw [List.map_append]
      exact List.mem_append_left _ (horph row hrow)
    · show setAL j.cols name [] =
        sqlLoadCollections { s with cols := s.cols ++ [(s.nextColId, name)],
                                    nextColId := s.nextColId + 1 }
      rw [setAL_append_of_none j.cols name [] hnone, hcols]
      show sqlLoadCollections s ++ [(name, [])] =
        (s.cols ++ [(s.nextColId, name)]).map (fun c => (c.2, colRequests s.reqs c.1))
      rw [List.map_append, sqlLoadCollections]
      congr 1
      simp only [List.map_cons, List.map_nil]
      rw [colRequests_fresh_nil s hlt horph]

theorem step_getCollection (j : JSONState) (s : SQLState) (name : String)
    (hc : Coupled j s) :
    jsonGetCollection j name = sqlGetCollection s name := by
  obtain ⟨_, _, _, hcols, _⟩ := hc
  rw [jsonGetCollection, sqlGetCollection, hcols, sqlLoadCollections]
  exact lookupAL_map_view s.cols _ name

theorem step_deleteCollection (j : JSONState) (s : SQLState) (name : String)
    (hc : Coupled j s) :
    Coupled (jsonDeleteCollection j name) (sqlDeleteCollection s name) ∧
    (sqlDeleteCollection s name).hist = s.hist := by
  obtain ⟨hj, hhi, ⟨hnames, hidsn, hlt, horph, hpos⟩, hcols, hals⟩ := hc
  have hinj : ∀ x ∈ s.cols, ∀ y ∈ s.cols, x.1 = y.1 → x = y :=
    List.inj_on_of_nodup_map hidsn
  have hremoved : ∀ c ∈ s.cols.filter (fun c => !(c.2 == name)),
      c.1 ∉ (s.cols.filter (fun c => c.2 == name)).map (fun c => c.1) := by
    intro c hcm hmem
    rcases List.mem_map.1 hmem with ⟨d, hdm, hde⟩
    have hdm' := List.mem_filter.1 hdm
    have hcm' := List.mem_filter.1 hcm
    have : d = c := hinj d hdm'.1 c hcm'.1 hde
    subst this
    rw [hdm'.2] at hcm'
    simp at hcm'
  have hsdel : sqlDeleteCollection s name =
      { s with cols := s.cols.filter (fun c => !(c.2 == name)),
               reqs := s.reqs.filter (fun row =>
                 !(((s.cols.filter (fun c => c.2 == name)).map
                    (fun c => c.1)).contains row.colId)) } := rfl
  rw [hsdel]
  refine ⟨⟨hj, hhi, ⟨?_, ?_, ?_, ?_, ?_⟩, ?_, hals⟩, rfl⟩
  · exact hnames.sublist ((List.filter_sublist s.cols).map _)
  · exact hidsn.sublist ((List.filter_sublist s.cols).map _)
  · intro c hcm
    exact hlt c (List.mem_of_mem_filter hcm)
  · intro row hrow
    have hrow' := List.mem_filter.1 hrow
    have hbase := horph row hrow'.1
    rcases List.mem_map.1 hbase with ⟨d, hdm, hde⟩
    have hdname : ¬ (d.2 == name) = true := by
      intro hdn
      have hdfil : d ∈ s.cols.filter (fun c => c.2 == name) :=
        List.mem_filter.2 ⟨hdm, hdn⟩
      have hmm : row.colId ∈ (s.cols.filter (fun c => c.2 == name)).map (fun c => c.1) := by
        rw [← hde]
        exact List.mem_map_of_mem _ hdfil
      have hct : ((s.cols.filter (fun c => c.2 == name)).map
          (fun c => c.1)).contains row.colId = true := List.elem_iff.mpr hmm
      rw [hct] at hrow'
      simp at hrow'
    show row.colId ∈ (s.cols.filter (fun c => !(c.2 == name))).map (fun c => c.1)
    rw [← hde]
    exact List.mem_map_of_mem _ (List.mem_filter.2 ⟨hdm, by simpa using hdname⟩)
  · intro i
    refine (hpos i).sublist ?_
    exact (List.filter_sublist s.reqs).filter _
  · show removeAL name j.cols = sqlLoadCollections _
    rw [hcols, sqlLoadCollections, removeAL_map_view, sqlLoadCollections]
    apply List.map_congr_left
    intro c hcm
    congr 1
    show colRequests s.reqs c.1 = colRequests _ c.1
    rw [colRequests, colRequests,
      rowsOfCol_filter_excluded s.reqs _ c.1 (fun hmem => hremoved c hcm hmem)]

theorem step_addToCollection (j : JSONState) (s : SQLState) (name : String)
    (req : SavedRequest) (hc : Coupled j s) :
    Coupled (jsonAddToCollection j name req) (sqlAddToCollection s name req) ∧
    (sqlAddToCollection s name req).hist = s.hist := by
  obtain ⟨hj, hhi, ⟨hnames, hidsn, hlt, horph, hpos⟩, hcols, hals⟩ := hc
  have hlook : lookupAL name j.cols =
      (firstColWithName name s.cols).map (colRequests s.reqs) := by
    rw [hcols, sqlLoadCollections]
    exact lookupAL_map_view s.cols _ name
  have hkeep := sqlAddToCollection_keeps s name req
  refine ⟨?_, hkeep.1⟩
  cases hf : firstColWithName name s.cols with
  | some i =>
    have hs1 : sqlAddToCollection s name req =
        { s with reqs := s.reqs ++ [⟨i, req, nextPosition (rowsOfCol s.reqs i)⟩] } := by
      simp [sqlAddToCollection, hf]
    have hj1 : jsonAddToCollection j name req =
        { j with cols := setAL j.cols name (colRequests s.reqs i ++ [req]) } := by
      simp [jsonAddToCollection, hlook, hf]
    have hgother : ∀ jj, jj ≠ i →
        colRequests (s.reqs ++ [⟨i, req, nextPosition (rowsOfCol s.reqs i)⟩]) jj =
          colRequests s.reqs jj := by
      intro jj hne
      rw [colRequests, colRequests, rowsOfCol_append]
      rw [if_neg (show ¬ (⟨i, req, nextPosition (rowsOfCol s.reqs i)⟩ : SavedRow).colId = jj
        from fun he => hne (he.symm))]
      rw [List.append_nil]
    have hnewgt : ∀ row ∈ rowsOfCol s.reqs i,
        row.pos < (⟨i, req, nextPosition (rowsOfCol s.reqs i)⟩ : SavedRow).pos :=
      fun row h => nextPosition_gt _ row h
    have hpapp : List.Pairwise (fun a b => a.pos < b.pos)
        (rowsOfCol s.reqs i ++ [⟨i, req, nextPosition (rowsOfCol s.reqs i)⟩]) := by
      rw [List.pairwise_append]
      refine ⟨hpos i, List.pairwise_singleton _ _, ?_⟩
      intro a ha b hb
      simp only [List.mem_singleton] at hb
      subst hb
      exact hnewgt a ha
    have hgi : colRequests (s.reqs ++ [⟨i, req, nextPosition (rowsOfCol s.reqs i)⟩]) i =
        colRequests s.reqs i ++ [req] := by
      rw [colRequests, rowsOfCol_append, if_pos rfl, sortByPos_of_strict _ hpapp,
        List.map_append, colRequests, sortByPos_of_strict _ (hpos i)]
      rfl
    have himem : i ∈ s.cols.map (fun c => c.1) :=
      List.mem_map_of_mem (fun c => c.1) (firstColWithName_some_mem name s.cols i hf)
    rw [hj1, hs1]
    refine ⟨hj, hhi, ⟨hnames, hidsn, hlt, ?_, ?_⟩, ?_, hals⟩
    · intro row hrow
      rcases List.mem_append.1 hrow with hm | hm
      · exact horph row hm
      · simp only [List.mem_singleton] at hm
        subst hm
        exact himem
    · intro jj
      by_cases hji : jj = i
      · rw [hji]
        show List.Pairwise _
          (rowsOfCol (s.reqs ++ [⟨i, req, nextPosition (rowsOfCol s.reqs i)⟩]) i)
        rw [rowsOfCol_append, if_pos rfl]
        exact hpapp
      · show List.Pairwise _
          (rowsOfCol (s.reqs ++ [⟨i, req, nextPosition (rowsOfCol s.reqs i)⟩]) jj)
        rw [rowsOfCol_append, if_neg (fun he => hji (he.symm)), List.append_nil]
        exact hpos jj
    · show setAL j.cols name (colRequests s.reqs i ++ [req]) = sqlLoadCollections _
      rw [hcols, sqlLoadCollections]
      exact (setAL_map_view s.cols (colRequests s.reqs)
        (colRequests (s.reqs ++ [⟨i, req, nextPosition (rowsOfCol s.reqs i)⟩])) name i
        (colRequests s.reqs i ++ [req]) hidsn hf hgother hgi).symm
  | none =>
    have hnone : lookupAL name j.cols = none := by rw [hlook, hf]; rfl
    have hj1 : jsonAddToCollection j name req =
        { j with cols := setAL j.cols name [req] } := by
      simp [jsonAddToCollection, hnone]
    have hs1 : sqlAddToCollection s name req =
        { s with cols := s.cols ++ [(s.nextColId, name)],
                 nextColId := s.nextColId + 1,
                 reqs := s.reqs ++
                   [⟨s.nextColId, req, nextPosition (rowsOfCol s.reqs s.nextColId)⟩] } := by
      simp [sqlAddToCollection, hf]
    have hfreshrows : rowsOfCol s.reqs s.nextColId = [] := by
      apply rowsOfCol_nil_of_ne
      intro row hrow he
      have := ids_lt_of_ColsInv s hlt row.colId (horph row hrow)
      omega
    have hfreshname : ∀ c ∈ s.cols, c.2 ≠ name :=
      (firstColWithName_none_iff name s.cols).1 hf
    have hgother : ∀ jj, jj ≠ s.nextColId →
        colRequests (s.reqs ++
          [⟨s.nextColId, req, nextPosition (rowsOfCol s.reqs s.nextColId)⟩]) jj =
          colRequests s.reqs jj := by
      intro jj hne
      rw [colRequests, colRequests, rowsOfCol_append]
      rw [if_neg (show ¬ (⟨s.nextColId, req,
        nextPosition (rowsOfCol s.reqs s.nextColId)⟩ : SavedRow).colId = jj
        from fun he => hne (he.symm))]
      rw [List.append_nil]
    have hgnew : colRequests (s.reqs ++
        [⟨s.nextColId, req, nextPosition (rowsOfCol s.reqs s.nextColId)⟩]) s.nextColId =
        [req] := by
      rw [colRequests, rowsOfCol_append, if_pos rfl, hfreshrows, List.nil_append,
        sortByPos_of_strict _ (List.pairwise_singleton _ _)]
      rfl
    rw [hj1, hs1]
    refine ⟨hj, hhi, ⟨?_, ?_, ?_, ?_, ?_⟩, ?_, hals⟩
    · show ((s.cols ++ [(s.nextColId, name)]).map (fun c => c.2)).Nodup
      rw [List.map_append, List.nodup_append]
      refine ⟨hnames, by simp, ?_⟩
      intro a ha hb
      simp only [List.map_cons, List.map_nil, List.mem_singleton] at hb
      rcases List.mem_map.1 ha with ⟨c, hcm, hce⟩
      exact hfreshname c hcm (by rw [hce, hb])
    · show ((s.cols ++ [(s.nextColId, name)]).map (fun c => c.1)).Nodup
      rw [List.map_append, List.nodup_append]
      refine ⟨hidsn, by simp, ?_⟩
      intro a ha hb
      simp only [List.map_cons, List.map_nil, List.mem_singleton] at hb
      have := ids_lt_of_ColsInv s hlt a ha
      omega
    · intro c hcm
      rcases List.mem_append.1 hcm with hm | hm
      · have := hlt c hm
        show c.1 < s.nextColId + 1
        omega
      · simp only [List.mem_singleton] at hm
        subst hm
        show s.nextColId < s.nextColId + 1
        omega
    · intro row hrow
      show row.colId ∈ (s.cols ++ [(s.nextColId, name)]).map (fun c => c.1)
      rw [List.map_append]
      rcases List.mem_append.1 hrow with hm | hm
      · exact List.mem_append_left _ (horph row hm)
      · simp only [List.mem_singleton] at hm
        subst hm
        apply List.mem_append_right
        simp
    · intro jj
      by_cases hji : jj = s.nextColId
      · rw [hji]
        show List.Pairwise _
          (rowsOfCol (s.reqs ++
            [⟨s.nextColId, req, nextPosition (rowsOfCol s.reqs s.nextColId)⟩]) s.nextColId)
        rw [rowsOfCol_append, if_pos rfl, hfreshrows, List.nil_append]
        exact List.pairwise_singleton _ _
      · show List.Pairwise _
          (rowsOfCol (s.reqs ++
            [⟨s.nextColId, req, nextPosition (rowsOfCol s.reqs s.nextColId)⟩]) jj)
        rw [rowsOfCol_append, if_neg (fun he => hji (he.symm)), List.append_nil]
        exact hpos jj
    · show setAL j.cols name [req] = sqlLoadCollections _
      rw [setAL_append_of_none j.cols name [req] hnone, hcols]
      show sqlLoadCollections s ++ [(name, [req])] =
        (s.cols ++ [(s.nextColId, name)]).map (fun c =>
          (c.2, colRequests (s.reqs ++
            [⟨s.nextColId, req, nextPosition (rowsOfCol s.reqs s.nextColId)⟩]) c.1))
      rw [List.map_append]
      congr 1
      · rw [sqlLoadCollections]
        apply List.map_congr_left
        intro c hcm
        have hne : c.1 ≠ s.nextColId := by
          have := hlt c hcm
          omega
        rw [hgother c.1 hne]
      · simp only [List.map_cons, List.map_nil]
        rw [hgnew]

theorem step_createAlias (j : JSONState) (s : SQLState) (name url : String)
    (hc : Coupled j s) :
    Coupled (jsonCreateAlias j name url) (sqlCreateAlias s name url) ∧
    (sqlCreateAlias s name url).hist = s.hist := by
  obtain ⟨hj, hhi, hci, hcols, hals⟩ := hc
  refine ⟨⟨hj, hhi, hci, hcols, ?_⟩, rfl⟩
  show setAL j.als name url = setAL s.als name url
  rw [hals]

theorem step_deleteAlias (j : JSONState) (s : SQLState) (name : String)
    (hc : Coupled j s) :
    Coupled (jsonDeleteAlias j name) (sqlDeleteAlias s name) ∧
    (sqlDeleteAlias s name).hist = s.hist := by
  obtain ⟨hj, hhi, hci, hcols, hals⟩ := hc
  refine ⟨⟨hj, hhi, hci, hcols, ?_⟩, rfl⟩
  show removeAL name j.als = removeAL name s.als
  rw [hals]

theorem step_getAlias (j : JSONState) (s : SQLState) (name : String)
    (hc : Coupled j s) :
    jsonGetAlias j name = sqlGetAlias s name := by
  obtain ⟨_, _, _, _, hals⟩ := hc
  show lookupAL name j.als = lookupAL name s.als
  rw [hals]

-- ---------------------------------------------------------------------------
-- C8: run-level simulation
-- ---------------------------------------------------------------------------

theorem backends_sim (ops : List StOp) : ∀ (j : JSONState) (s : SQLState),
    Coupled j s → OpsOK ops → Ahead s.hist ops →
    (jsonRun j ops).2 = (sqlRun s ops).2 ∧
    Coupled (jsonRun j ops).1 (sqlRun s ops).1 := by
  induction ops with
  | nil => intro j s hc _ _; exact ⟨rfl, hc⟩
  | cons op rest ih =>
    intro j s hc hok hahead
    cases op with
    | addHistory r =>
      have hp : List.Pairwise (fun a b => a.timestamp < b.timestamp) (r :: addsOf rest) :=
        hok.1
      have hn : ((r :: addsOf rest).map (fun q => q.id)).Nodup := hok.2
      have hr : r ∈ addsOf (StOp.addHistory r :: rest) :=
        List.mem_cons_self r (addsOf rest)
      have hdom := hahead r hr
      have hstep := step_addHistory j s r hc (fun x hx => (hdom x hx).1)
        (fun x hx => (hdom x hx).2)
      have hok' : OpsOK rest := ⟨(List.pairwise_cons.1 hp).2, by
        simp only [List.map_cons, List.nodup_cons] at hn
        exact hn.2⟩
      have hahead' : Ahead (sqlAddToHistory s r).hist rest := by
        intro r' hr' x hx
        rcases hstep.2 x hx with hm | he
        · exact hahead r' (List.mem_cons_of_mem _ hr') x hm
        · subst he
          refine ⟨(List.pairwise_cons.1 hp).1 r' hr', ?_⟩
          intro he2
          simp only [List.map_cons, List.nodup_cons] at hn
          exact hn.1 (he2 ▸ List.mem_map_of_mem (fun q => q.id) hr')
      have hres := ih _ _ hstep.1 hok' hahead'
      exact ⟨by
        show OpResult.done :: (jsonRun (jsonAddToHistory j r) rest).2 =
          OpResult.done :: (sqlRun (sqlAddToHistory s r) rest).2
        rw [hres.1], hres.2⟩
    | clearHistory =>
      have hstep := step_clearHistory j s hc
      have hahead' : Ahead (sqlClearHistory s).hist rest := by
        intro r' _ x hx
        exact absurd hx (List.not_mem_nil x)
      have hres := ih _ _ hstep hok hahead'
      exact ⟨by
        show OpResult.done :: (jsonRun (jsonClearHistory j) rest).2 =
          OpResult.done :: (sqlRun (sqlClearHistory s) rest).2
        rw [hres.1], hres.2⟩
    | getHistory id =>
      have hres := ih j s hc hok hahead
      exact ⟨by
        show OpResult.histReq (jsonGetHistoryRequest j id) :: (jsonRun j rest).2 =
          OpResult.histReq (sqlGetHistoryRequest s id) :: (sqlRun s rest).2
        rw [step_getHistory j s id hc, hres.1], hres.2⟩
    | createCollection name =>
      have hstep := step_createCollection j s name hc
      have hahead' : Ahead (sqlCreateCollection s name).hist rest := by
        rw [hstep.2]
        exact hahead
      have hres := ih _ _ hstep.1 hok hahead'
      exact ⟨by
        show OpResult.done :: (jsonRun (jsonCreateCollection j name) rest).2 =
          OpResult.done :: (sqlRun (sqlCreateCollection s name) rest).2
        rw [hres.1], hres.2⟩
    | addToCollection name req =>
      have hstep := step_addToCollection j s name req hc
      have hahead' : Ahead (sqlAddToCollection s name req).hist rest := by
        rw [hstep.2]
        exact hahead
      have hres := ih _ _ hstep.1 hok hahead'
      exact ⟨by
        show OpResult.done :: (jsonRun (jsonAddToCollection j name req) rest).2 =
          OpResult.done :: (sqlRun (sqlAddToCollection s name req) rest).2
        rw [hres.1], hres.2⟩
    | deleteCollection name =>
      have hstep := step_deleteCollection j s name hc
      have hahead' : Ahead (sqlDeleteCollection s name).hist rest := by
        rw [hstep.2]
        exact hahead
      have hres := ih _ _ hstep.1 hok hahead'
      exact ⟨by
        show OpResult.done :: (jsonRun (jsonDeleteCollection j name) rest).2 =
          OpResult.done :: (sqlRun (sqlDeleteCollection s name) rest).2
        rw [hres.1], hres.2⟩
    | getCollection name =>
      have hres := ih j s hc hok hahead
      exact ⟨by
        show OpResult.col (jsonGetCollection j name) :: (jsonRun j rest).2 =
          OpResult.col (sqlGetCollection s name) :: (sqlRun s rest).2
        rw [step_getCollection j s name hc, hres.1], hres.2⟩
    | createAlias name url =>
      have hstep := step_createAlias j s name url hc
      have hahead' : Ahead (sqlCreateAlias s name url).hist rest := by
        rw [hstep.2]
        exact hahead
      have hres := ih _ _ hstep.1 hok hahead'
      exact ⟨by
        show OpResult.done :: (jsonRun (jsonCreateAlias j name url) rest).2 =
          OpResult.done :: (sqlRun (sqlCreateAlias s name url) rest).2
        rw [hres.1], hres.2⟩
    | deleteAlias name =>
      have hstep := step_deleteAlias j s name hc
      have hahead' : Ahead (sqlDeleteAlias s name).hist rest := by
        rw [hstep.2]
        exact hahead
      have hres := ih _ _ hstep.1 hok hahead'
      exact ⟨by
        show OpResult.done :: (jsonRun (jsonDeleteAlias j name) rest).2 =
          OpResult.done :: (sqlRun (sqlDeleteAlias s name) rest).2
        rw [hres.1], hres.2⟩
    | getAlias name =>
      have hres := ih j s hc hok hahead
      exact ⟨by
        show OpResult.aliasURL (jsonGetAlias j name) :: (jsonRun j rest).2 =
          OpResult.aliasURL (sqlGetAlias s name) :: (sqlRun s rest).2
        rw [step_getAlias j s name hc, hres.1], hres.2⟩

/-- C8 counterexample: the two backends are NOT observably equal on every
sequence — after adding a newer-timestamped record and then an
older-timestamped one, `LoadHistory` returns insertion order on the JSON
backend but timestamp-descending order on the SQLite backend. -/
theorem backends_diverge_on_out_of_order_timestamps :
    jsonLoadHistory (jsonRun jsonInit [.addHistory reqTs1, .addHistory reqTs0]).1 ≠
      sqlLoadHistory (sqlRun sqlInit [.addHistory reqTs1, .addHistory reqTs0]).1 := by
  decide

/-- C8 amended: for every operation sequence whose AddToHistory calls
carry strictly increasing timestamps and pairwise-distinct ids, the two
backends return identical per-operation results from the empty store and
end in observably equal states as read back by LoadHistory,
LoadCollections, and LoadAliases.  Without that restriction the backends
disagree on LoadHistory (JSON keeps insertion order and duplicate ids;
SQLite sorts by timestamp and replaces on id). -/
theorem backends_observationally_equivalent (ops : List StOp)
    (hts : List.Pairwise (fun a b => a.timestamp < b.timestamp) (addsOf ops))
    (hids : ((addsOf ops).map (fun r => r.id)).Nodup) :
    (jsonRun jsonInit ops).2 = (sqlRun sqlInit ops).2 ∧
    jsonLoadHistory (jsonRun jsonInit ops).1 = sqlLoadHistory (sqlRun sqlInit ops).1 ∧
    jsonLoadCollections (jsonRun jsonInit ops).1 =
      sqlLoadCollections (sqlRun sqlInit ops).1 ∧
    jsonLoadAliases (jsonRun jsonInit ops).1 = sqlLoadAliases (sqlRun sqlInit ops).1 := by
  have hc0 : Coupled jsonInit sqlInit := by
    refine ⟨rfl, ⟨List.Pairwise.nil, List.nodup_nil, Nat.zero_le 100⟩,
      ⟨List.nodup_nil, List.nodup_nil, ?_, ?_, ?_⟩, rfl, rfl⟩
    · intro c hcm; cases hcm
    · intro row hrow; cases hrow
    · intro i; exact List.Pairwise.nil
  have hahead0 : Ahead sqlInit.hist ops := by
    intro r _ x hx
    exact absurd hx (List.not_mem_nil x)
  have hsim := backends_sim ops jsonInit sqlInit hc0 ⟨hts, hids⟩ hahead0
  obtain ⟨hres, hjq, ⟨hinc, _, hlen⟩, _, hview, halsf⟩ := hsim
  refine ⟨hres, ?_, hview, halsf⟩
  rw [jsonLoadHistory, hjq, sqlLoadHistory, sortByTsDesc_strictInc _ hinc]
  rw [List.take_of_length_le (by rw [List.length_reverse]; exact hlen)]

/-- Witness for C8: a mixed sequence of alias, history, and collection
operations (with increasing timestamps and fresh ids) yields identical
results and observably equal final state on both backends. -/
theorem backends_observationally_equivalent_witness :
    (jsonRun jsonInit
        [.createAlias "api" "https://e.com/v1", .addHistory reqTs0, .addHistory reqTs1,
         .getAlias "api", .createCollection "c", .addToCollection "c" savedReqA,
         .getCollection "c"]).2 =
      (sqlRun sqlInit
        [.createAlias "api" "https://e.com/v1", .addHistory reqTs0, .addHistory reqTs1,
         .getAlias "api", .createCollection "c", .addToCollection "c" savedReqA,
         .getCollection "c"]).2 ∧
    jsonLoadHistory (jsonRun jsonInit
        [.createAlias "api" "https://e.com/v1", .addHistory reqTs0, .addHistory reqTs1,
         .getAlias "api", .createCollection "c", .addToCollection "c" savedReqA,
         .getCollection "c"]).1 =
      sqlLoadHistory (sqlRun sqlInit
        [.createAlias "api" "https://e.com/v1", .addHistory reqTs0, .addHistory reqTs1,
         .getAlias "api", .createCollection "c", .addToCollection "c" savedReqA,
         .getCollection "c"]).1 ∧
    jsonLoadCollections (jsonRun jsonInit
        [.createAlias "api" "https://e.com/v1", .addHistory reqTs0, .addHistory reqTs1,
         .getAlias "api", .createCollection "c", .addToCollection "c" savedReqA,
         .getCollection "c"]).1 =
      sqlLoadCollections (sqlRun sqlInit
        [.createAlias "api" "https://e.com/v1", .addHistory reqTs0, .addHistory reqTs1,
         .getAlias "api", .createCollection "c", .addToCollection "c" savedReqA,
         .getCollection "c"]).1 ∧
    jsonLoadAliases (jsonRun jsonInit
        [.createAlias "api" "https://e.com/v1", .addHistory reqTs0, .addHistory reqTs1,
         .getAlias "api", .createCollection "c", .addToCollection "c" savedReqA,
         .getCollection "c"]).1 =
      sqlLoadAliases (sqlRun sqlInit
        [.createAlias "api" "https://e.com/v1", .addHistory reqTs0, .addHistory reqTs1,
         .getAlias "api", .createCollection "c", .addToCollection "c" savedReqA,
         .getCollection "c"]).1 :=
  backends_observationally_equivalent
    [.createAlias "api" "https://e.com/v1", .addHistory reqTs0, .addHistory reqTs1,
     .getAlias "api", .createCollection "c", .addToCollection "c" savedReqA,
     .getCollection "c"]
    (by decide) (by decide)
